import Mathlib

/-!
# gokong: the plugin client (`plugins.go`)

A shallow embedding of `plugins.go` and a development of its properties.

Conventions of the embedding.

* A Go `string` is a `String`, a text of Unicode characters; a Go `int` is an
  `Int`.
* A pointer result `*T` is an `Option T` (`none` is `nil`); an `error` result
  is an `Option GoError`, a `GoError` carrying the text of `Error()`.
* The HTTP exchange of `gorequest` is a function from the request that was
  built to the triple that `End()` returns.
* `encoding/json` works on a tree of JSON values (`JSON`).  `parseJSON` reads
  the text of a body into such a tree, and the `decode...` and `store...`
  functions store a tree into a Go value the way `json.Unmarshal` does for
  the struct tags of `plugins.go`.  The `marshal...` functions build the tree
  that `json.Marshal` writes, and `renderJSON` its text.
* A value of type `interface{}` filled by the decoder is a `GoValue`.  A
  `float64` stands as the numeric literal that denotes it: floating-point
  arithmetic is not part of the embedding, and every numeric literal is
  taken to be in the range of `float64`.
-/

namespace Gokong

/-! ## JSON values and their text -/

/-- JSON value, as the text of a body spells it: the members of an object are
kept in the order of the text, repeated names included. -/
inductive JSON where
  | null
  | bool (b : Bool)
  | num (lit : String)
  | str (s : String)
  | arr (items : List JSON)
  | obj (members : List (String × JSON))

/-- The four white-space characters of the JSON grammar. -/
def isSpace (c : Char) : Bool :=
  c.toNat = 32 || c.toNat = 9 || c.toNat = 13 || c.toNat = 10

/-- Decimal digit test. -/
def isDigit (c : Char) : Bool := 48 ≤ c.toNat && c.toNat ≤ 57

/-- Drops leading white space. -/
def skipSpace : List Char → List Char
  | [] => []
  | c :: cs => if isSpace c then skipSpace cs else c :: cs

/-- First byte of the UTF-8 encoding of a character: the scanner of
`encoding/json` reads bytes and reports the byte it stopped at. -/
def firstByte (c : Char) : Nat :=
  let n := c.toNat
  if n < 128 then n
  else if n < 2048 then 192 + n / 64
  else if n < 65536 then 224 + n / 4096
  else 240 + n / 262144

/-- Lower-case hexadecimal digit of a number below 16. -/
def hexDigit (n : Nat) : Char :=
  if n < 10 then Char.ofNat (48 + n) else Char.ofNat (87 + n)

/-- The `quoteChar` of `encoding/json`: the offending byte between single
quotes, escaped as `strconv.Quote` escapes it. -/
def quoteChar (c : Char) : String :=
  let b := firstByte c
  let q := String.singleton (Char.ofNat 39)
  let bs := String.singleton (Char.ofNat 92)
  let inner : String :=
    if b = 39 then bs ++ q
    else if b = 34 then String.singleton (Char.ofNat 34)
    else if b = 92 then bs ++ bs
    else if b = 7 then bs ++ "a"
    else if b = 8 then bs ++ "b"
    else if b = 12 then bs ++ "f"
    else if b = 10 then bs ++ "n"
    else if b = 13 then bs ++ "r"
    else if b = 9 then bs ++ "t"
    else if b = 11 then bs ++ "v"
    else if b < 32 || b = 127 then
      bs ++ "x" ++ String.mk [hexDigit (b / 16), hexDigit (b % 16)]
    else String.singleton (Char.ofNat b)
  q ++ inner ++ q

/-- Text of a `SyntaxError` raised at character `c`. -/
def invalidChar (c : Char) (context : String) : String :=
  "invalid character " ++ quoteChar c ++ " " ++ context

/-- Text of the `SyntaxError` raised when the input stops too early. -/
def unexpectedEnd : String := "unexpected end of JSON input"

/-- Result of reading a piece of JSON text: the piece and the rest of the
input, or the text of the error. -/
abbrev Scan (α : Type) := Except String (α × List Char)

/-- Value of a hexadecimal digit. -/
def hexVal (c : Char) : Option Nat :=
  let n := c.toNat
  if 48 ≤ n && n ≤ 57 then some (n - 48)
  else if 97 ≤ n && n ≤ 102 then some (n - 87)
  else if 65 ≤ n && n ≤ 70 then some (n - 55)
  else none

/-- One unit of a string literal: a character, or the 16-bit unit written by
a `\u` escape. -/
inductive StrUnit where
  | lit (c : Char)
  | esc (u : Nat)

/-- Character named by a one-letter escape. -/
def simpleEscape (c : Char) : Option Char :=
  let n := c.toNat
  if n = 34 || n = 92 || n = 47 then some c
  else if c = 'b' then some (Char.ofNat 8)
  else if c = 'f' then some (Char.ofNat 12)
  else if c = 'n' then some (Char.ofNat 10)
  else if c = 'r' then some (Char.ofNat 13)
  else if c = 't' then some (Char.ofNat 9)
  else none

/-- The four hexadecimal digits of a `\u` escape. -/
def scanHex4 (cs : List Char) : Scan Nat :=
  let bad (c : Char) : Scan Nat :=
    .error (invalidChar c "in \\u hexadecimal character escape")
  match cs with
  | [] => .error unexpectedEnd
  | a :: r1 =>
    match hexVal a with
    | none => bad a
    | some x1 =>
      match r1 with
      | [] => .error unexpectedEnd
      | b :: r2 =>
        match hexVal b with
        | none => bad b
        | some x2 =>
          match r2 with
          | [] => .error unexpectedEnd
          | c :: r3 =>
            match hexVal c with
            | none => bad c
            | some x3 =>
              match r3 with
              | [] => .error unexpectedEnd
              | d :: r4 =>
                match hexVal d with
                | none => bad d
                | some x4 => .ok (((x1 * 16 + x2) * 16 + x3) * 16 + x4, r4)

/-- Reads a string literal after its opening quote, up to and including the
closing quote.  `fuel` bounds the number of units read. -/
def scanUnits : Nat → List Char → List StrUnit → Scan (List StrUnit)
  | 0, _, _ => .error unexpectedEnd
  | _ + 1, [], _ => .error unexpectedEnd
  | fuel + 1, c :: cs, acc =>
    if c.toNat = 34 then .ok (acc.reverse, cs)
    else if c.toNat = 92 then
      match cs with
      | [] => .error unexpectedEnd
      | e :: rest =>
        match simpleEscape e with
        | some x => scanUnits fuel rest (StrUnit.lit x :: acc)
        | none =>
          if e = 'u' then
            match scanHex4 rest with
            | .error msg => .error msg
            | .ok (u, rest2) => scanUnits fuel rest2 (StrUnit.esc u :: acc)
          else .error (invalidChar e "in string escape code")
    else if c.toNat < 32 then .error (invalidChar c "in string literal")
    else scanUnits fuel cs (StrUnit.lit c :: acc)

/-- The characters a list of units spells: two `\u` units that form a
surrogate pair give one character, a lone surrogate gives U+FFFD.  The second
argument is the high surrogate read just before, if any. -/
def unitsToChars : List StrUnit → Option Nat → List Char
  | [], none => []
  | [], some _ => [Char.ofNat 65533]
  | StrUnit.lit c :: us, none => c :: unitsToChars us none
  | StrUnit.lit c :: us, some _ => Char.ofNat 65533 :: c :: unitsToChars us none
  | StrUnit.esc u :: us, none =>
    if 55296 ≤ u && u < 56320 then unitsToChars us (some u)
    else if 56320 ≤ u && u < 57344 then Char.ofNat 65533 :: unitsToChars us none
    else Char.ofNat u :: unitsToChars us none
  | StrUnit.esc u :: us, some h =>
    if 56320 ≤ u && u < 57344 then
      Char.ofNat (65536 + (h - 55296) * 1024 + (u - 56320)) :: unitsToChars us none
    else if 55296 ≤ u && u < 56320 then Char.ofNat 65533 :: unitsToChars us (some u)
    else Char.ofNat 65533 :: Char.ofNat u :: unitsToChars us none

/-- Reads a string literal after its opening quote. -/
def scanString (cs : List Char) : Scan String :=
  match scanUnits (cs.length + 1) cs [] with
  | .error msg => .error msg
  | .ok (us, rest) => .ok (String.mk (unitsToChars us none), rest)

/-- Takes the leading decimal digits. -/
def spanDigits : List Char → List Char × List Char
  | [] => ([], [])
  | c :: cs =>
    if isDigit c then
      let r := spanDigits cs
      (c :: r.1, r.2)
    else ([], c :: cs)

/-- Reads the exponent of a number, the input standing after `e` or `E`. -/
def scanExponent (pre : List Char) (cs : List Char) : Scan (List Char) :=
  let sign : List Char × List Char :=
    match cs with
    | c :: r => if c = '+' || c = '-' then ([c], r) else ([], cs)
    | [] => ([], [])
  match sign.2 with
  | [] => .error unexpectedEnd
  | c :: r =>
    if isDigit c then
      let ds := spanDigits (c :: r)
      .ok (pre ++ sign.1 ++ ds.1, ds.2)
    else .error (invalidChar c "in exponent of numeric literal")

/-- Reads the fraction and exponent of a number, the input standing after
the integer part `pre`. -/
def scanFraction (pre : List Char) (cs : List Char) : Scan (List Char) :=
  match cs with
  | [] => .ok (pre, [])
  | c :: r =>
    if c = '.' then
      match r with
      | [] => .error unexpectedEnd
      | d :: r2 =>
        if isDigit d then
          let ds := spanDigits (d :: r2)
          match ds.2 with
          | e :: r3 =>
            if e = 'e' || e = 'E' then scanExponent (pre ++ [c] ++ ds.1 ++ [e]) r3
            else .ok (pre ++ [c] ++ ds.1, ds.2)
          | [] => .ok (pre ++ [c] ++ ds.1, [])
        else .error (invalidChar d "after decimal point in numeric literal")
    else if c = 'e' || c = 'E' then scanExponent (pre ++ [c]) r
    else .ok (pre, cs)

/-- Reads a number whose first character `c` is a digit or the minus sign;
the result is the literal. -/
def scanNumber (c : Char) (cs : List Char) : Scan String :=
  let body (pre : List Char) (d : Char) (r : List Char) : Scan (List Char) :=
    if d = '0' then scanFraction (pre ++ [d]) r
    else
      let ds := spanDigits r
      scanFraction (pre ++ [d] ++ ds.1) ds.2
  let res : Scan (List Char) :=
    if c = '-' then
      match cs with
      | [] => .error unexpectedEnd
      | d :: r =>
        if isDigit d then body [c] d r
        else .error (invalidChar d "in numeric literal")
    else body [] c cs
  match res with
  | .error msg => .error msg
  | .ok (lit, rest) => .ok (String.mk lit, rest)

/-- Reads the rest of one of the literals `true`, `false`, `null`: `want` is
what must follow, `name` the literal. -/
def scanLiteral (name : String) (v : JSON) : List Char → List Char → Scan JSON
  | [], rest => .ok (v, rest)
  | _ :: _, [] => .error unexpectedEnd
  | w :: ws, c :: cs =>
    if c = w then scanLiteral name v ws cs
    else .error (invalidChar c
      ("in literal " ++ name ++ " (expecting " ++ quoteChar w ++ ")"))

mutual
/-- Reads one JSON value; the input has no leading white space. -/
def scanValue : Nat → List Char → Scan JSON
  | 0, _ => .error unexpectedEnd
  | _ + 1, [] => .error unexpectedEnd
  | fuel + 1, c :: cs =>
    if c.toNat = 123 then
      match skipSpace cs with
      | [] => .error unexpectedEnd
      | d :: r =>
        if d.toNat = 125 then .ok (JSON.obj [], r)
        else scanMembers fuel (d :: r) []
    else if c = '[' then
      match skipSpace cs with
      | [] => .error unexpectedEnd
      | d :: r =>
        if d = ']' then .ok (JSON.arr [], r)
        else scanItems fuel (d :: r) []
    else if c.toNat = 34 then
      match scanString cs with
      | .error msg => .error msg
      | .ok (s, rest) => .ok (JSON.str s, rest)
    else if c = '-' || isDigit c then
      match scanNumber c cs with
      | .error msg => .error msg
      | .ok (lit, rest) => .ok (JSON.num lit, rest)
    else if c = 't' then scanLiteral "true" (JSON.bool true) ['r', 'u', 'e'] cs
    else if c = 'f' then scanLiteral "false" (JSON.bool false) ['a', 'l', 's', 'e'] cs
    else if c = 'n' then scanLiteral "null" JSON.null ['u', 'l', 'l'] cs
    else .error (invalidChar c "looking for beginning of value")
/-- Reads the items of an array, the input standing at an item. -/
def scanItems : Nat → List Char → List JSON → Scan JSON
  | 0, _, _ => .error unexpectedEnd
  | fuel + 1, cs, acc =>
    match scanValue fuel cs with
    | .error msg => .error msg
    | .ok (v, rest) =>
      match skipSpace rest with
      | [] => .error unexpectedEnd
      | d :: r =>
        if d = ',' then
          match skipSpace r with
          | [] => .error unexpectedEnd
          | r2 => scanItems fuel r2 (v :: acc)
        else if d = ']' then .ok (JSON.arr (v :: acc).reverse, r)
        else .error (invalidChar d "after array element")
/-- Reads the members of an object, the input standing at a member name. -/
def scanMembers : Nat → List Char → List (String × JSON) → Scan JSON
  | 0, _, _ => .error unexpectedEnd
  | _ + 1, [], _ => .error unexpectedEnd
  | fuel + 1, q :: cs, acc =>
    if q.toNat = 34 then
      match scanString cs with
      | .error msg => .error msg
      | .ok (k, rest) =>
        match skipSpace rest with
        | [] => .error unexpectedEnd
        | d :: r =>
          if d = ':' then
            match skipSpace r with
            | [] => .error unexpectedEnd
            | r2 =>
              match scanValue fuel r2 with
              | .error msg => .error msg
              | .ok (v, rest2) =>
                match skipSpace rest2 with
                | [] => .error unexpectedEnd
                | e :: r3 =>
                  if e = ',' then
                    match skipSpace r3 with
                    | [] => .error unexpectedEnd
                    | r4 => scanMembers fuel r4 ((k, v) :: acc)
                  else if e.toNat = 125 then .ok (JSON.obj ((k, v) :: acc).reverse, r3)
                  else .error (invalidChar e "after object key:value pair")
          else .error (invalidChar d "after object key")
    else .error (invalidChar q "looking for beginning of object key string")
end

/-- The JSON value a text spells, or the text of the `SyntaxError` that
`json.Unmarshal` raises on it.  The fuel is twice the length of the text, of
two successive levels of the descent one having read a character: no more
fuel changes the result (`scanValue_fuel_enough`). -/
def parseJSON (body : String) : Except String JSON :=
  match skipSpace body.data with
  | [] => .error unexpectedEnd
  | cs =>
    match scanValue (2 * cs.length + 2) cs with
    | .error msg => .error msg
    | .ok (v, rest) =>
      match skipSpace rest with
      | [] => .ok v
      | c :: _ => .error (invalidChar c "after top-level value")

/-- A numeric literal of the JSON grammar: the scanner reads it whole. -/
def ValidNumber (lit : String) : Prop :=
  ∃ c cs, lit.data = c :: cs ∧ (c = '-' ∨ isDigit c = true) ∧ scanNumber c cs = .ok (lit, [])

/-- Whether a text is a numeric literal of the JSON grammar, computed. -/
def isNumberLit (lit : String) : Bool :=
  match lit.data with
  | [] => false
  | c :: cs =>
    (decide (c = '-') || isDigit c) &&
      (match scanNumber c cs with
       | .ok (_, []) => true
       | _ => false)

/-! ## Go values filled by the decoder -/

/-- Value held by an `interface{}` that `encoding/json` has filled: `nil`,
`bool`, `float64`, `string`, `[]interface{}` or `map[string]interface{}`.
The entries of a map are listed in increasing order of their keys, the order
in which `json.Marshal` writes them. -/
inductive GoValue where
  | nil
  | bool (b : Bool)
  | float64 (lit : String)
  | string (s : String)
  | slice (items : List GoValue)
  | map (entries : List (String × GoValue))

/-- The assignment `m[k] = v` on the entries of a map. -/
def mapSet {α : Type} (k : String) (v : α) : List (String × α) → List (String × α)
  | [] => [(k, v)]
  | (k1, v1) :: rest =>
    if k.data < k1.data then (k, v) :: (k1, v1) :: rest
    else if k = k1 then (k, v) :: rest
    else (k1, v1) :: mapSet k v rest

mutual
/-- The Go value the decoder builds for a JSON value stored into an
`interface{}`. -/
def toAny : JSON → GoValue
  | JSON.null => GoValue.nil
  | JSON.bool b => GoValue.bool b
  | JSON.num lit => GoValue.float64 lit
  | JSON.str s => GoValue.string s
  | JSON.arr items => GoValue.slice (toAnyItems items)
  | JSON.obj members => GoValue.map (toAnyMembers members [])
/-- Items of an array stored into a `[]interface{}`. -/
def toAnyItems : List JSON → List GoValue
  | [] => []
  | x :: xs => toAny x :: toAnyItems xs
/-- Members of an object stored one after the other into a
`map[string]interface{}` that holds `acc`. -/
def toAnyMembers : List (String × JSON) → List (String × GoValue) → List (String × GoValue)
  | [], acc => acc
  | (k, v) :: ms, acc => toAnyMembers ms (mapSet k (toAny v) acc)
end

mutual
/-- The JSON value `json.Marshal` writes for the content of an
`interface{}`. -/
def marshalAny : GoValue → JSON
  | GoValue.nil => JSON.null
  | GoValue.bool b => JSON.bool b
  | GoValue.float64 lit => JSON.num lit
  | GoValue.string s => JSON.str s
  | GoValue.slice items => JSON.arr (marshalItems items)
  | GoValue.map entries => JSON.obj (marshalEntries entries)
/-- Items of a slice. -/
def marshalItems : List GoValue → List JSON
  | [] => []
  | x :: xs => marshalAny x :: marshalItems xs
/-- Entries of a map, in the order of their keys. -/
def marshalEntries : List (String × GoValue) → List (String × JSON)
  | [] => []
  | (k, v) :: es => (k, marshalAny v) :: marshalEntries es
end

mutual
/-- Representation invariant of a Go value: every `float64` is given by a
numeric literal of JSON, and in every map the keys are listed in strictly
increasing order. -/
def GoValue.Canonical : GoValue → Prop
  | GoValue.float64 lit => ValidNumber lit
  | GoValue.slice items => canonicalItems items
  | GoValue.map entries =>
    List.Pairwise (fun a b => a.data < b.data) (entries.map Prod.fst) ∧ canonicalValues entries
  | _ => True
/-- Every item of a slice is canonical. -/
def canonicalItems : List GoValue → Prop
  | [] => True
  | x :: xs => GoValue.Canonical x ∧ canonicalItems xs
/-- Every value of a map is canonical. -/
def canonicalValues : List (String × GoValue) → Prop
  | [] => True
  | (_, v) :: es => GoValue.Canonical v ∧ canonicalValues es
end

mutual
/-- The representation invariant of a Go value, computed. -/
def GoValue.isCanonical : GoValue → Bool
  | GoValue.float64 lit => isNumberLit lit
  | GoValue.slice items => areCanonicalItems items
  | GoValue.map entries =>
    decide (List.Pairwise (fun a b : String => a.data < b.data) (entries.map Prod.fst))
      && areCanonicalValues entries
  | _ => true
/-- Whether every item of a slice is canonical. -/
def areCanonicalItems : List GoValue → Bool
  | [] => true
  | x :: xs => GoValue.isCanonical x && areCanonicalItems xs
/-- Whether every value of a map is canonical. -/
def areCanonicalValues : List (String × GoValue) → Bool
  | [] => true
  | (_, v) :: es => GoValue.isCanonical v && areCanonicalValues es
end

/-! ## Storing JSON values into Go fields -/

/-- Name `encoding/json` gives to the kind of a JSON value in an
`UnmarshalTypeError`. -/
def JSON.kind : JSON → String
  | JSON.null => "null"
  | JSON.bool _ => "bool"
  | JSON.num _ => "number"
  | JSON.str _ => "string"
  | JSON.arr _ => "array"
  | JSON.obj _ => "object"

/-- Text of an `UnmarshalTypeError`: `ctx` is the struct and the field being
filled, if any. -/
def typeError (ctx : Option (String × String)) (value goType : String) : String :=
  match ctx with
  | some (struct, field) =>
    "json: cannot unmarshal " ++ value ++ " into Go struct field " ++ struct ++ "." ++ field
      ++ " of type " ++ goType
  | none => "json: cannot unmarshal " ++ value ++ " into Go value of type " ++ goType

/-- The `saveError` of the decoder: the first error is the one kept. -/
def saveError (saved : Option String) (msg : String) : Option String :=
  match saved with
  | some e => some e
  | none => some msg

/-- Letter folding under which the decoder compares a member name with a
field name: ASCII capitals, the Kelvin sign and the long s fold to their
lower-case ASCII letter. -/
def foldChar (c : Char) : Char :=
  if 65 ≤ c.toNat && c.toNat ≤ 90 then Char.ofNat (c.toNat + 32)
  else if c.toNat = 8490 then 'k'
  else if c.toNat = 383 then 's'
  else c

/-- Folded form of a name. -/
def foldName (s : String) : String := String.mk (s.data.map foldChar)

/-- The field a member name selects among the JSON names `tags` of a struct:
the field of that exact name, otherwise the first one equal to it under
folding. -/
def resolveField (tags : List String) (key : String) : Option String :=
  match tags.find? (fun t => decide (t = key)) with
  | some t => some t
  | none => tags.find? (fun t => decide (foldName t = foldName key))

/-- Stores a JSON value into a `string` field. -/
def storeString (ctx : Option (String × String)) (v : JSON) (cur : String)
    (saved : Option String) : String × Option String :=
  match v with
  | JSON.str s => (s, saved)
  | JSON.null => (cur, saved)
  | other => (cur, saveError saved (typeError ctx other.kind "string"))

/-- Stores a JSON value into a `bool` field. -/
def storeBool (ctx : Option (String × String)) (v : JSON) (cur : Bool)
    (saved : Option String) : Bool × Option String :=
  match v with
  | JSON.bool b => (b, saved)
  | JSON.null => (cur, saved)
  | other => (cur, saveError saved (typeError ctx other.kind "bool"))

/-- Value of a run of decimal digits. -/
def digitsValue (cs : List Char) : Nat :=
  cs.foldl (fun n c => 10 * n + (c.toNat - 48)) 0

/-- The `strconv.ParseInt(lit, 10, 64)` of a JSON numeric literal: an
optional minus sign and digits only, within 64 bits. -/
def parseInt64 (lit : String) : Option Int :=
  let signed : Bool × List Char :=
    match lit.data with
    | c :: cs => if c = '-' then (true, cs) else (false, c :: cs)
    | [] => (false, [])
  if signed.2 ≠ [] ∧ signed.2.all isDigit then
    let n : Int := if signed.1 then -(digitsValue signed.2 : Int) else (digitsValue signed.2 : Int)
    if -9223372036854775808 ≤ n ∧ n ≤ 9223372036854775807 then some n else none
  else none

/-- Stores a JSON value into an `int` field. -/
def storeInt (ctx : Option (String × String)) (v : JSON) (cur : Int)
    (saved : Option String) : Int × Option String :=
  match v with
  | JSON.num lit =>
    match parseInt64 lit with
    | some n => (n, saved)
    | none => (cur, saveError saved (typeError ctx ("number " ++ lit) "int"))
  | JSON.null => (cur, saved)
  | other => (cur, saveError saved (typeError ctx other.kind "int"))

/-- Stores a JSON value into an `interface{}` field: `null` sets it to
`nil`. -/
def storeAny (v : JSON) : GoValue := toAny v

/-- Stores a JSON value into a `map[string]interface{}` field (`none` is the
nil map): an object is stored member by member into the map that is there,
`null` sets the field to the nil map. -/
def storeAnyMap (ctx : Option (String × String)) (v : JSON)
    (cur : Option (List (String × GoValue))) (saved : Option String) :
    Option (List (String × GoValue)) × Option String :=
  match v with
  | JSON.obj members => (some (toAnyMembers members (cur.getD [])), saved)
  | JSON.null => (none, saved)
  | other => (cur, saveError saved (typeError ctx other.kind "map[string]interface {}"))

/-! ## The types of `plugins.go` -/

/-- Modelled from the spec: the `Config` struct is declared in another file
of the repository; the spec gives it the field `HostAddress`, the base
address of the gateway, without a trailing slash. -/
structure Config where
  HostAddress : String

/-- The `PluginClient` struct. -/
structure PluginClient where
  config : Config

/-- The `PluginRequest` struct. -/
structure PluginRequest where
  Name : String
  ApiId : String
  ConsumerId : String
  Config : Option (List (String × GoValue))

/-- The `Plugin` struct; `Config` is `none` for the nil map. -/
structure Plugin where
  Id : String
  Name : String
  ApiId : String
  ConsumerId : String
  Config : Option (List (String × GoValue))
  Enabled : Bool

/-- The `Plugins` struct; `Results` is `none` for the nil slice, an element
is `none` for a nil pointer. -/
structure Plugins where
  Results : Option (List (Option Plugin))
  Total : Int
  Next : String

/-- The `PluginFilter` struct. -/
structure PluginFilter where
  Id : String
  Name : String
  ApiId : String
  ConsumerId : String
  Size : Int
  Offset : Int

/-- The `PluginSchemaField` struct; `DefaultValue` is `GoValue.nil` for the
nil interface.  The field `Type` is named `FieldType` here, `Type` being
reserved. -/
structure PluginSchemaField where
  FieldType : String
  IsRequired : Bool
  IsUnique : Bool
  DefaultValue : GoValue
  Func : String

/-- The `PluginSchema` struct; `Fields` is `none` for the nil map. -/
structure PluginSchema where
  Fields : Option (List (String × PluginSchemaField))
  ErrorMessage : String

/-- The method `HasDefaultValue`: `psf.DefaultValue != nil`. -/
def PluginSchemaField.HasDefaultValue (psf : PluginSchemaField) : Bool :=
  match psf.DefaultValue with
  | GoValue.nil => false
  | _ => true

/-- The constant `PluginsPath`. -/
def PluginsPath : String := "/plugins/"

/-- The value `&Plugin{}`. -/
def Plugin.zero : Plugin := ⟨"", "", "", "", none, false⟩

/-- The representation invariant of a plugin: its `Config`, when it is not
the nil map, is a canonical map. -/
def Plugin.isCanonical (p : Plugin) : Bool :=
  match p.Config with
  | none => true
  | some entries => (GoValue.map entries).isCanonical

/-- The value `&Plugins{}`. -/
def Plugins.zero : Plugins := ⟨none, 0, ""⟩

/-- The zero `PluginSchemaField`. -/
def PluginSchemaField.zero : PluginSchemaField := ⟨"", false, false, GoValue.nil, ""⟩

/-- The value `&PluginSchema{}`. -/
def PluginSchema.zero : PluginSchema := ⟨none, ""⟩

/-! ## `json.Unmarshal` on the types of `plugins.go` -/

/-- JSON names of the fields of `Plugin`, from its struct tags. -/
def Plugin.tags : List String := ["id", "name", "api_id", "consumer_id", "config", "enabled"]

/-- Stores one member of an object into a `Plugin`; a member that selects no
field is skipped. -/
def Plugin.storeMember (st : Plugin × Option String) (m : String × JSON) :
    Plugin × Option String :=
  let p := st.1
  let f := resolveField Plugin.tags m.1
  if f = some "id" then
    let r := storeString (some ("Plugin", "id")) m.2 p.Id st.2
    ({ p with Id := r.1 }, r.2)
  else if f = some "name" then
    let r := storeString (some ("Plugin", "name")) m.2 p.Name st.2
    ({ p with Name := r.1 }, r.2)
  else if f = some "api_id" then
    let r := storeString (some ("Plugin", "api_id")) m.2 p.ApiId st.2
    ({ p with ApiId := r.1 }, r.2)
  else if f = some "consumer_id" then
    let r := storeString (some ("Plugin", "consumer_id")) m.2 p.ConsumerId st.2
    ({ p with ConsumerId := r.1 }, r.2)
  else if f = some "config" then
    let r := storeAnyMap (some ("Plugin", "config")) m.2 p.Config st.2
    ({ p with Config := r.1 }, r.2)
  else if f = some "enabled" then
    let r := storeBool (some ("Plugin", "enabled")) m.2 p.Enabled st.2
    ({ p with Enabled := r.1 }, r.2)
  else st

/-- Stores a JSON value into a `Plugin`: the result and the saved error. -/
def decodePlugin (ctx : Option (String × String)) (v : JSON) (p : Plugin)
    (saved : Option String) : Plugin × Option String :=
  match v with
  | JSON.obj members => members.foldl Plugin.storeMember (p, saved)
  | JSON.null => (p, saved)
  | other => (p, saveError saved (typeError ctx other.kind "gokong.Plugin"))

/-- The call `json.Unmarshal([]byte(body), plugin)`: the plugin after the
call and the error returned (`none` is `nil`). -/
def unmarshalPlugin (body : String) (plugin : Plugin) : Plugin × Option String :=
  match parseJSON body with
  | .error msg => (plugin, some msg)
  | .ok v => decodePlugin none v plugin none

/-- Stores the items of an array into a `[]*Plugin`, each into a new
element: `null` gives a nil pointer. -/
def storePluginItems (ctx : Option (String × String)) :
    List JSON → Option String → List (Option Plugin) × Option String
  | [], saved => ([], saved)
  | JSON.null :: items, saved =>
    let r := storePluginItems ctx items saved
    (none :: r.1, r.2)
  | v :: items, saved =>
    let e := decodePlugin ctx v Plugin.zero saved
    let r := storePluginItems ctx items e.2
    (some e.1 :: r.1, r.2)

/-- Stores a JSON value into a `[]*Plugin` field. -/
def storePluginSlice (ctx : Option (String × String)) (v : JSON)
    (cur : Option (List (Option Plugin))) (saved : Option String) :
    Option (List (Option Plugin)) × Option String :=
  match v with
  | JSON.arr items =>
    let r := storePluginItems ctx items saved
    (some r.1, r.2)
  | JSON.null => (none, saved)
  | other => (cur, saveError saved (typeError ctx other.kind "[]*gokong.Plugin"))

/-- JSON names of the fields of `Plugins`. -/
def Plugins.tags : List String := ["data", "total", "next"]

/-- Stores one member of an object into a `Plugins`. -/
def Plugins.storeMember (st : Plugins × Option String) (m : String × JSON) :
    Plugins × Option String :=
  let p := st.1
  let f := resolveField Plugins.tags m.1
  if f = some "data" then
    let r := storePluginSlice (some ("Plugins", "data")) m.2 p.Results st.2
    ({ p with Results := r.1 }, r.2)
  else if f = some "total" then
    let r := storeInt (some ("Plugins", "total")) m.2 p.Total st.2
    ({ p with Total := r.1 }, r.2)
  else if f = some "next" then
    let r := storeString (some ("Plugins", "next")) m.2 p.Next st.2
    ({ p with Next := r.1 }, r.2)
  else st

/-- The call `json.Unmarshal([]byte(body), plugins)`. -/
def unmarshalPlugins (body : String) (plugins : Plugins) : Plugins × Option String :=
  match parseJSON body with
  | .error msg => (plugins, some msg)
  | .ok (JSON.obj members) => members.foldl Plugins.storeMember (plugins, none)
  | .ok JSON.null => (plugins, none)
  | .ok other => (plugins, some (typeError none other.kind "gokong.Plugins"))

/-- JSON names of the fields of `PluginSchemaField`. -/
def PluginSchemaField.tags : List String := ["type", "required", "unique", "default", "func"]

/-- Stores one member of an object into a `PluginSchemaField`. -/
def PluginSchemaField.storeMember (st : PluginSchemaField × Option String)
    (m : String × JSON) : PluginSchemaField × Option String :=
  let p := st.1
  let f := resolveField PluginSchemaField.tags m.1
  if f = some "type" then
    let r := storeString (some ("PluginSchemaField", "type")) m.2 p.FieldType st.2
    ({ p with FieldType := r.1 }, r.2)
  else if f = some "required" then
    let r := storeBool (some ("PluginSchemaField", "required")) m.2 p.IsRequired st.2
    ({ p with IsRequired := r.1 }, r.2)
  else if f = some "unique" then
    let r := storeBool (some ("PluginSchemaField", "unique")) m.2 p.IsUnique st.2
    ({ p with IsUnique := r.1 }, r.2)
  else if f = some "default" then
    ({ p with DefaultValue := storeAny m.2 }, st.2)
  else if f = some "func" then
    let r := storeString (some ("PluginSchemaField", "func")) m.2 p.Func st.2
    ({ p with Func := r.1 }, r.2)
  else st

/-- Stores a JSON value into a `PluginSchemaField`. -/
def decodeSchemaField (ctx : Option (String × String)) (v : JSON) (p : PluginSchemaField)
    (saved : Option String) : PluginSchemaField × Option String :=
  match v with
  | JSON.obj members => members.foldl PluginSchemaField.storeMember (p, saved)
  | JSON.null => (p, saved)
  | other => (p, saveError saved (typeError ctx other.kind "gokong.PluginSchemaField"))

/-- Stores the members of an object one after the other into a
`map[string]PluginSchemaField` that holds `acc`: each value is stored into a
zero element, which is then put under the member name. -/
def storeSchemaFields (ctx : Option (String × String)) :
    List (String × JSON) → List (String × PluginSchemaField) → Option String →
    List (String × PluginSchemaField) × Option String
  | [], acc, saved => (acc, saved)
  | (k, v) :: ms, acc, saved =>
    let e := decodeSchemaField ctx v PluginSchemaField.zero saved
    storeSchemaFields ctx ms (mapSet k e.1 acc) e.2

/-- Stores a JSON value into a `map[string]PluginSchemaField` field. -/
def storeSchemaFieldMap (ctx : Option (String × String)) (v : JSON)
    (cur : Option (List (String × PluginSchemaField))) (saved : Option String) :
    Option (List (String × PluginSchemaField)) × Option String :=
  match v with
  | JSON.obj members =>
    let r := storeSchemaFields ctx members (cur.getD []) saved
    (some r.1, r.2)
  | JSON.null => (none, saved)
  | other =>
    (cur, saveError saved (typeError ctx other.kind "map[string]gokong.PluginSchemaField"))

/-- JSON names of the fields of `PluginSchema`. -/
def PluginSchema.tags : List String := ["fields", "message"]

/-- Stores one member of an object into a `PluginSchema`. -/
def PluginSchema.storeMember (st : PluginSchema × Option String) (m : String × JSON) :
    PluginSchema × Option String :=
  let p := st.1
  let f := resolveField PluginSchema.tags m.1
  if f = some "fields" then
    let r := storeSchemaFieldMap (some ("PluginSchema", "fields")) m.2 p.Fields st.2
    ({ p with Fields := r.1 }, r.2)
  else if f = some "message" then
    let r := storeString (some ("PluginSchema", "message")) m.2 p.ErrorMessage st.2
    ({ p with ErrorMessage := r.1 }, r.2)
  else st

/-- The call `json.Unmarshal([]byte(body), ps)`. -/
def unmarshalPluginSchema (body : String) (ps : PluginSchema) : PluginSchema × Option String :=
  match parseJSON body with
  | .error msg => (ps, some msg)
  | .ok (JSON.obj members) => members.foldl PluginSchema.storeMember (ps, none)
  | .ok JSON.null => (ps, none)
  | .ok other => (ps, some (typeError none other.kind "gokong.PluginSchema"))

/-! ## `json.Marshal` on `Plugin` -/

/-- The four hexadecimal digits `json.Marshal` writes after `\u`. -/
def hex4 (n : Nat) : List Char :=
  [hexDigit (n / 4096 % 16), hexDigit (n / 256 % 16), hexDigit (n / 16 % 16), hexDigit (n % 16)]

/-- How `json.Marshal` writes one character of a string: the quote and the
backslash after a backslash, the line feed, the carriage return and the tab
as `\n`, `\r` and `\t`, the other control characters, `<`, `>`, `&`, U+2028
and U+2029 as `\u` and four digits, every other character as it is. -/
def escapeChar (c : Char) : List Char :=
  if c.toNat = 34 || c.toNat = 92 then [Char.ofNat 92, c]
  else if c.toNat = 10 then [Char.ofNat 92, 'n']
  else if c.toNat = 13 then [Char.ofNat 92, 'r']
  else if c.toNat = 9 then [Char.ofNat 92, 't']
  else if c.toNat < 32 || c.toNat = 60 || c.toNat = 62 || c.toNat = 38
      || c.toNat = 8232 || c.toNat = 8233 then
    Char.ofNat 92 :: 'u' :: hex4 c.toNat
  else [c]

/-- The characters of a string as `json.Marshal` writes them. -/
def escapeChars : List Char → List Char
  | [] => []
  | c :: cs => escapeChar c ++ escapeChars cs

/-- The string literal `json.Marshal` writes. -/
def renderString (s : String) : List Char :=
  Char.ofNat 34 :: (escapeChars s.data ++ [Char.ofNat 34])

mutual
/-- The text `json.Marshal` writes for a JSON value: no white space, the
items of an array and the members of an object separated by commas. -/
def renderValue : JSON → List Char
  | JSON.null => ['n', 'u', 'l', 'l']
  | JSON.bool true => ['t', 'r', 'u', 'e']
  | JSON.bool false => ['f', 'a', 'l', 's', 'e']
  | JSON.num lit => lit.data
  | JSON.str s => renderString s
  | JSON.arr items => '[' :: (renderItems items ++ [']'])
  | JSON.obj members => Char.ofNat 123 :: (renderMembers members ++ [Char.ofNat 125])
/-- The items of an array, separated by commas. -/
def renderItems : List JSON → List Char
  | [] => []
  | x :: xs => renderValue x ++ renderMoreItems xs
/-- The items of an array after the first, each after a comma. -/
def renderMoreItems : List JSON → List Char
  | [] => []
  | x :: xs => ',' :: (renderValue x ++ renderMoreItems xs)
/-- The members of an object, separated by commas. -/
def renderMembers : List (String × JSON) → List Char
  | [] => []
  | (k, v) :: ms => renderString k ++ ':' :: (renderValue v ++ renderMoreMembers ms)
/-- The members of an object after the first, each after a comma. -/
def renderMoreMembers : List (String × JSON) → List Char
  | [] => []
  | (k, v) :: ms => ',' :: (renderString k ++ ':' :: (renderValue v ++ renderMoreMembers ms))
end

mutual
/-- Every number of a JSON value is a numeric literal of the grammar. -/
def JSON.NumbersValid : JSON → Prop
  | JSON.num lit => ValidNumber lit
  | JSON.arr items => numbersValidItems items
  | JSON.obj members => numbersValidMembers members
  | _ => True
/-- Every number of the items of an array is a numeric literal. -/
def numbersValidItems : List JSON → Prop
  | [] => True
  | x :: xs => JSON.NumbersValid x ∧ numbersValidItems xs
/-- Every number of the members of an object is a numeric literal. -/
def numbersValidMembers : List (String × JSON) → Prop
  | [] => True
  | (_, v) :: ms => JSON.NumbersValid v ∧ numbersValidMembers ms
end

/-- What may follow a value in a JSON text: nothing, a comma, or the end of
an array or of an object. -/
def Stop (rest : List Char) : Prop :=
  match rest with
  | [] => True
  | c :: _ => c = ',' ∨ c = ']' ∨ c.toNat = 125

/-- The unit the scanner reads for a character that `json.Marshal` wrote. -/
def unitOf (c : Char) : StrUnit :=
  if c.toNat = 34 || c.toNat = 92 || c.toNat = 10 || c.toNat = 13 || c.toNat = 9 then StrUnit.lit c
  else if c.toNat < 32 || c.toNat = 60 || c.toNat = 62 || c.toNat = 38
      || c.toNat = 8232 || c.toNat = 8233 then StrUnit.esc c.toNat
  else StrUnit.lit c

/-- First characters of a value. -/
def ValueStart (c : Char) : Prop :=
  c.toNat = 123 ∨ c = '[' ∨ c.toNat = 34 ∨ c = '-' ∨ isDigit c = true ∨ c = 't' ∨ c = 'f' ∨ c = 'n'

/-- A Go `error`, by the text of its `Error()`. -/
structure GoError where
  Error : String

/-- HTTP methods the client uses. -/
inductive Method where
  | GET
  | PUT
  | PATCH
  | DELETE

/-- What a chain `gorequest.New().M(url).Send(payload)` has built when
`End()` is called; `payload` is `none` when `Send` is not called. -/
structure Request where
  method : Method
  url : String
  payload : Option PluginRequest

/-- The `gorequest.Response` returned by `End()`: its status code, and the
text the verb `%v` prints for it. -/
structure Response where
  StatusCode : Int
  Printed : String

/-- The triple `End()` returns.  `failed` is the case `errs != nil`, `errs`
listing the texts of the errors; `done` is the case `errs == nil`, in which
the response is there. -/
inductive Outcome where
  | failed (res : Option Response) (body : String) (errs : List String)
  | done (res : Response) (body : String)

/-- The verb `%v` on a `[]error`. -/
def fmtErrs (errs : List String) : String := "[" ++ " ".intercalate errs ++ "]"

/-- The verb `%v` on a `gorequest.Response`. -/
def fmtResponse (res : Option Response) : String :=
  match res with
  | some r => r.Printed
  | none => "<nil>"

/-! ## Query strings -/

/-- Value of a field of a filter struct. -/
inductive UrlValue where
  | str (s : String)
  | int (n : Int)

/-- Field of a filter struct with its `url` tag: the name, and whether the
tag says `omitempty`. -/
structure UrlField where
  name : String
  omitempty : Bool
  value : UrlValue

/-- The fields of a `PluginFilter` with their `url` tags, in the order of the
struct. -/
def PluginFilter.urlFields (f : PluginFilter) : List UrlField :=
  [⟨"id", true, UrlValue.str f.Id⟩,
   ⟨"name", true, UrlValue.str f.Name⟩,
   ⟨"api_id", true, UrlValue.str f.ApiId⟩,
   ⟨"consumer_id", true, UrlValue.str f.ConsumerId⟩,
   ⟨"size", true, UrlValue.int f.Size⟩,
   ⟨"offset", true, UrlValue.int f.Offset⟩]

/-- Whether a value is the zero value of its type. -/
def UrlValue.isZero : UrlValue → Bool
  | UrlValue.str s => decide (s = "")
  | UrlValue.int n => decide (n = 0)

/-- A value as a query string carries it: a string as it is, an integer in
decimal. -/
def UrlValue.text : UrlValue → String
  | UrlValue.str s => s
  | UrlValue.int n => toString n

/-- Modelled from the spec: the query-string serializer behind
`addQueryString` is not in `plugins.go`.  The parameters of a filter are its
fields that are not omitted: a field tagged `omitempty` is omitted when its
value is zero. -/
def queryValues (fields : List UrlField) : List (String × String) :=
  fields.filterMap fun fd =>
    if fd.omitempty && fd.value.isZero then none else some (fd.name, fd.value.text)

/-- Modelled from the spec: the text of a query string, the parameters
written `name=value` in the order of the fields and joined by `&`.  The spec
leaves the escaping of names and values to the serializer: `escape` is that
escaping. -/
def encodeQuery (escape : String → String) (params : List (String × String)) : String :=
  "&".intercalate (params.map fun kv => escape kv.1 ++ "=" ++ escape kv.2)

/-- Modelled from the spec: `addQueryString` is called by `ListFiltered` and
defined in another file of the repository.  It returns the URL as it is when
no filter is given or when the filter has no parameter, and otherwise the URL
followed by `?` and the query string of the filter. -/
def addQueryString (escape : String → String) (currentUrl : String)
    (filter : Option PluginFilter) : String × Option GoError :=
  match filter with
  | none => (currentUrl, none)
  | some f =>
    if queryValues f.urlFields = [] then (currentUrl, none)
    else (currentUrl ++ "?" ++ encodeQuery escape (queryValues f.urlFields), none)

/-! ## The operations of `PluginClient` -/

/-- The request `GetById` sends. -/
def getByIdRequest (pluginClient : PluginClient) (id : String) : Request :=
  ⟨Method.GET, pluginClient.config.HostAddress ++ PluginsPath ++ id, none⟩

/-- The method `GetById`; `send` is the HTTP exchange. -/
def PluginClient.GetById (send : Request → Outcome) (pluginClient : PluginClient) (id : String) :
    Option Plugin × Option GoError :=
  match send (getByIdRequest pluginClient id) with
  | Outcome.failed _ _ errs => (none, some ⟨"could not get plugin, error: " ++ fmtErrs errs⟩)
  | Outcome.done _ body =>
    match unmarshalPlugin body Plugin.zero with
    | (_, some err) =>
      (none, some ⟨"could not parse plugin plugin response, error: " ++ err⟩)
    | (plugin, none) =>
      if plugin.Id = "" then (none, none) else (some plugin, none)

/-- The address `ListFiltered` passes to `Get`, with the error of
`addQueryString`. -/
def listFilteredAddress (escape : String → String) (pluginClient : PluginClient)
    (filter : Option PluginFilter) : String × Option GoError :=
  addQueryString escape (pluginClient.config.HostAddress ++ PluginsPath) filter

/-- The method `ListFiltered`; a nil filter is `none`, and `escape` is the
escaping of the query-string serializer. -/
def PluginClient.ListFiltered (escape : String → String) (send : Request → Outcome)
    (pluginClient : PluginClient) (filter : Option PluginFilter) :
    Option Plugins × Option GoError :=
  match listFilteredAddress escape pluginClient filter with
  | (_, some err) =>
    (none, some ⟨"could not build query string for plugins filter, error: " ++ err.Error⟩)
  | (address, none) =>
    match send ⟨Method.GET, address, none⟩ with
    | Outcome.failed _ _ errs => (none, some ⟨"could not get plugins, error: " ++ fmtErrs errs⟩)
    | Outcome.done _ body =>
      match unmarshalPlugins body Plugins.zero with
      | (_, some err) =>
        (none, some ⟨"could not parse plugins list response, error: " ++ err⟩)
      | (plugins, none) => (some plugins, none)

/-- The method `List`. -/
def PluginClient.List (escape : String → String) (send : Request → Outcome)
    (pluginClient : PluginClient) : Option Plugins × Option GoError :=
  PluginClient.ListFiltered escape send pluginClient none

/-- The address `Create` puts to: `httpPath`. -/
def createPath (pluginClient : PluginClient) (pluginRequest : PluginRequest) : String :=
  if pluginRequest.ApiId = "" then pluginClient.config.HostAddress ++ PluginsPath
  else pluginClient.config.HostAddress ++ "/apis/" ++ pluginRequest.ApiId ++ PluginsPath

/-- The request `Create` sends. -/
def createRequest (pluginClient : PluginClient) (pluginRequest : PluginRequest) : Request :=
  ⟨Method.PUT, createPath pluginClient pluginRequest, some pluginRequest⟩

/-- The method `Create`. -/
def PluginClient.Create (send : Request → Outcome) (pluginClient : PluginClient)
    (pluginRequest : PluginRequest) : Option Plugin × Option GoError :=
  match send (createRequest pluginClient pluginRequest) with
  | Outcome.failed _ _ errs =>
    (none, some ⟨"could not create new plugin, error: " ++ fmtErrs errs⟩)
  | Outcome.done _ body =>
    match unmarshalPlugin body Plugin.zero with
    | (_, some err) =>
      (none, some ⟨"could not parse plugin creation response, error: " ++ err
        ++ " kong response: " ++ body⟩)
    | (createdPlugin, none) =>
      if createdPlugin.Id = "" then (none, some ⟨"could not create plugin, err: " ++ body⟩)
      else (some createdPlugin, none)

/-- The request `UpdateById` sends. -/
def updateByIdRequest (pluginClient : PluginClient) (id : String)
    (pluginRequest : PluginRequest) : Request :=
  ⟨Method.PATCH, pluginClient.config.HostAddress ++ PluginsPath ++ id, some pluginRequest⟩

/-- The method `UpdateById`. -/
def PluginClient.UpdateById (send : Request → Outcome) (pluginClient : PluginClient) (id : String)
    (pluginRequest : PluginRequest) : Option Plugin × Option GoError :=
  match send (updateByIdRequest pluginClient id pluginRequest) with
  | Outcome.failed _ _ errs => (none, some ⟨"could not update plugin, error: " ++ fmtErrs errs⟩)
  | Outcome.done _ body =>
    match unmarshalPlugin body Plugin.zero with
    | (_, some err) =>
      (none, some ⟨"could not parse plugin update response, error: " ++ err
        ++ " kong response: " ++ body⟩)
    | (updatedPlugin, none) =>
      if updatedPlugin.Id = "" then (none, some ⟨"could not update plugin, error: " ++ body⟩)
      else (some updatedPlugin, none)

/-- The request `DeleteById` sends. -/
def deleteByIdRequest (pluginClient : PluginClient) (id : String) : Request :=
  ⟨Method.DELETE, pluginClient.config.HostAddress ++ PluginsPath ++ id, none⟩

/-- The method `DeleteById`. -/
def PluginClient.DeleteById (send : Request → Outcome) (pluginClient : PluginClient) (id : String) :
    Option GoError :=
  match send (deleteByIdRequest pluginClient id) with
  | Outcome.failed res _ errs =>
    some ⟨"could not delete plugin, result: " ++ fmtResponse res ++ " error: " ++ fmtErrs errs⟩
  | Outcome.done _ _ => none

/-- The request `GetSchema` sends. -/
def getSchemaRequest (pluginClient : PluginClient) (pluginName : String) : Request :=
  ⟨Method.GET, pluginClient.config.HostAddress ++ "/plugins/schema/" ++ pluginName, none⟩

/-- Fixed part of the message `GetSchema` gives on a status other than
200. -/
def schemaErrorText : String :=
  "Error occured during retrieving a plugin" ++ String.singleton (Char.ofNat 39)
    ++ "s schema data: "

/-- The method `GetSchema`. -/
def PluginClient.GetSchema (send : Request → Outcome) (pluginClient : PluginClient) (pluginName : String) :
    Option PluginSchema × Option GoError :=
  match send (getSchemaRequest pluginClient pluginName) with
  | Outcome.failed _ _ errs => (none, some ⟨"could not get plugins, error: " ++ fmtErrs errs⟩)
  | Outcome.done rsp body =>
    match unmarshalPluginSchema body PluginSchema.zero with
    | (_, some err) => (none, some ⟨err⟩)
    | (ps, none) =>
      if rsp.StatusCode ≠ 200 then (none, some ⟨schemaErrorText ++ ps.ErrorMessage⟩)
      else (some ps, none)

/-- A text occurs inside another: the characters of `part` are a run of the
characters of `whole`. -/
def Within (part whole : String) : Prop := part.data <:+: whole.data

/-- Whether a text occurs inside another can be computed. -/
instance (part whole : String) : Decidable (Within part whole) :=
  inferInstanceAs (Decidable (part.data <:+: whole.data))

/-! ## Properties -/

/-- A text occurs inside another exactly when the other is the text with
something before and something after. -/
theorem within_iff (part whole : String) :
    Within part whole ↔ ∃ before after, whole = before ++ part ++ after := by
  constructor
  · rintro ⟨s, t, h⟩
    refine ⟨⟨s⟩, ⟨t⟩, ?_⟩
    apply String.ext
    simp [String.data_append, h]
  · rintro ⟨b, a, rfl⟩
    exact ⟨b.data, a.data, by simp [String.data_append]⟩

/-- A text occurs at the end of what is put before it. -/
theorem within_append (before part : String) : Within part (before ++ part) :=
  ⟨before.data, [], by simp [String.data_append]⟩

/-! ### The operations -/

/-- C2: when the exchange of `GetById` ends without error and the body
decodes as the plugin `p`, the result is `(nil, nil)` if `p.Id` is empty and
`(p, nil)` if it is not, whatever the response (its status code included). -/
theorem getById_result (send : Request → Outcome) (c : PluginClient) (id : String)
    (res : Response) (body : String) (p : Plugin)
    (hsend : send (getByIdRequest c id) = Outcome.done res body)
    (hdec : unmarshalPlugin body Plugin.zero = (p, none)) :
    PluginClient.GetById send c id = if p.Id = "" then (none, none) else (some p, none) := by
  unfold PluginClient.GetById
  rw [hsend]
  simp only [hdec]

/-- Witness of `getById_result`: a response of status 500 whose body is the
plugin `abc123`. -/
theorem getById_result_witness :
    unmarshalPlugin "\x7b\"id\":\"abc123\",\"name\":\"cors\",\"enabled\":true\x7d" Plugin.zero
        = (⟨"abc123", "cors", "", "", none, true⟩, none)
      ∧ PluginClient.GetById
          (fun _ => Outcome.done ⟨500, ""⟩
            "\x7b\"id\":\"abc123\",\"name\":\"cors\",\"enabled\":true\x7d")
          ⟨⟨"http://kong:8001"⟩⟩ "abc123"
        = (some ⟨"abc123", "cors", "", "", none, true⟩, none) :=
  ⟨rfl, getById_result _ ⟨⟨"http://kong:8001"⟩⟩ "abc123" ⟨500, ""⟩ _
    ⟨"abc123", "cors", "", "", none, true⟩ rfl rfl⟩

/-- C3: when the exchange of `Create`, or of `UpdateById`, ends without error
and the body decodes as a plugin whose `Id` is empty, the operation returns
no plugin and an error, and the body is part of the text of the error. -/
theorem create_update_empty_id (send : Request → Outcome) (c : PluginClient) (id : String)
    (r : PluginRequest) (resC resU : Response) (bodyC bodyU : String) (pC pU : Plugin)
    (hsendC : send (createRequest c r) = Outcome.done resC bodyC)
    (hdecC : unmarshalPlugin bodyC Plugin.zero = (pC, none)) (hidC : pC.Id = "")
    (hsendU : send (updateByIdRequest c id r) = Outcome.done resU bodyU)
    (hdecU : unmarshalPlugin bodyU Plugin.zero = (pU, none)) (hidU : pU.Id = "") :
    (PluginClient.Create send c r = (none, some ⟨"could not create plugin, err: " ++ bodyC⟩)
        ∧ Within bodyC ("could not create plugin, err: " ++ bodyC))
      ∧ (PluginClient.UpdateById send c id r
            = (none, some ⟨"could not update plugin, error: " ++ bodyU⟩)
        ∧ Within bodyU ("could not update plugin, error: " ++ bodyU)) := by
  refine ⟨⟨?_, within_append _ _⟩, ⟨?_, within_append _ _⟩⟩
  · unfold PluginClient.Create
    rw [hsendC]
    simp only [hdecC, hidC, if_true]
  · unfold PluginClient.UpdateById
    rw [hsendU]
    simp only [hdecU, hidU, if_true]

/-- Witness of `create_update_empty_id`: the gateway answers both requests
with status 400 and a message, which decodes as a plugin without `Id`. -/
theorem create_update_empty_id_witness :
    PluginClient.Create
        (fun _ => Outcome.done ⟨400, ""⟩ "\x7b\"message\":\"name required\"\x7d")
        ⟨⟨"http://kong:8001"⟩⟩ ⟨"", "", "", none⟩
      = (none, some ⟨"could not create plugin, err: \x7b\"message\":\"name required\"\x7d"⟩)
    ∧ PluginClient.UpdateById
        (fun _ => Outcome.done ⟨400, ""⟩ "\x7b\"message\":\"name required\"\x7d")
        ⟨⟨"http://kong:8001"⟩⟩ "p-7" ⟨"", "", "", none⟩
      = (none, some ⟨"could not update plugin, error: \x7b\"message\":\"name required\"\x7d"⟩) :=
  have h := create_update_empty_id
    (fun _ => Outcome.done ⟨400, ""⟩ "\x7b\"message\":\"name required\"\x7d")
    ⟨⟨"http://kong:8001"⟩⟩ "p-7" ⟨"", "", "", none⟩ ⟨400, ""⟩ ⟨400, ""⟩ _ _
    Plugin.zero Plugin.zero rfl rfl rfl rfl rfl rfl
  ⟨h.1.1, h.2.1⟩

/-- C4, as the code has it: when the exchange of `GetSchema` ends without
error and the body decodes as the schema `ps`, the result is `(ps, nil)` on
status 200, whatever `ps.ErrorMessage` holds, and on any other status no
schema and an error whose text contains `ps.ErrorMessage`. -/
theorem getSchema_result (send : Request → Outcome) (c : PluginClient) (pluginName : String)
    (rsp : Response) (body : String) (ps : PluginSchema)
    (hsend : send (getSchemaRequest c pluginName) = Outcome.done rsp body)
    (hdec : unmarshalPluginSchema body PluginSchema.zero = (ps, none)) :
    PluginClient.GetSchema send c pluginName
        = (if rsp.StatusCode = 200 then (some ps, none)
           else (none, some ⟨schemaErrorText ++ ps.ErrorMessage⟩))
      ∧ Within ps.ErrorMessage (schemaErrorText ++ ps.ErrorMessage) := by
  refine ⟨?_, within_append _ _⟩
  unfold PluginClient.GetSchema
  rw [hsend]
  simp only [hdec]
  by_cases h : rsp.StatusCode = 200 <;> simp [h]

/-- Witness of `getSchema_result`: status 404 with a message. -/
theorem getSchema_result_witness :
    PluginClient.GetSchema
        (fun _ => Outcome.done ⟨404, ""⟩ "\x7b\"message\":\"No plugin named cors\"\x7d")
        ⟨⟨"http://kong:8001"⟩⟩ "cors"
      = (none, some ⟨"Error occured during retrieving a plugin" ++ String.singleton (Char.ofNat 39)
          ++ "s schema data: No plugin named cors"⟩) :=
  (getSchema_result (fun _ => Outcome.done ⟨404, ""⟩ "\x7b\"message\":\"No plugin named cors\"\x7d")
    ⟨⟨"http://kong:8001"⟩⟩ "cors" ⟨404, ""⟩ _ ⟨none, "No plugin named cors"⟩ rfl rfl).1

set_option maxRecDepth 100000 in
/-- C4 fails as stated on a body that does not decode.  On status 200 with an
empty body `GetSchema` returns no schema and the error of the decoder.  On
status 404 with a body whose `message` is `boom` and whose `fields` is a
number, it returns the error of the decoder, and `boom` is no part of its
text. -/
theorem getSchema_undecodable :
    PluginClient.GetSchema (fun _ => Outcome.done ⟨200, ""⟩ "") ⟨⟨"http://kong:8001"⟩⟩ "cors"
        = (none, some ⟨"unexpected end of JSON input"⟩)
      ∧ parseJSON "\x7b\"message\":\"boom\",\"fields\":5\x7d"
        = Except.ok (JSON.obj [("message", JSON.str "boom"), ("fields", JSON.num "5")])
      ∧ PluginClient.GetSchema
          (fun _ => Outcome.done ⟨404, ""⟩ "\x7b\"message\":\"boom\",\"fields\":5\x7d")
          ⟨⟨"http://kong:8001"⟩⟩ "cors"
        = (none, some ⟨"json: cannot unmarshal number into Go struct field PluginSchema.fields of type map[string]gokong.PluginSchemaField"⟩)
      ∧ ¬ Within "boom"
          "json: cannot unmarshal number into Go struct field PluginSchema.fields of type map[string]gokong.PluginSchemaField" := by
  refine ⟨rfl, rfl, rfl, ?_⟩
  decide

/-- C7: `DeleteById` returns `nil` exactly when the exchange reports no
error; two responses that differ in their status code only give the same
result. -/
theorem deleteById_result (send : Request → Outcome) (c : PluginClient) (id : String) :
    (PluginClient.DeleteById send c id = none
        ↔ ∃ res body, send (deleteByIdRequest c id) = Outcome.done res body)
      ∧ ∀ (status1 status2 : Int) (printed body : String),
          PluginClient.DeleteById (fun _ => Outcome.done ⟨status1, printed⟩ body) c id
            = PluginClient.DeleteById (fun _ => Outcome.done ⟨status2, printed⟩ body) c id := by
  constructor
  · unfold PluginClient.DeleteById
    cases h : send (deleteByIdRequest c id) with
    | failed res body errs => simp
    | done res body => simp
  · intro status1 status2 printed body
    rfl

/-- C10: `GetById`, `Create` and `UpdateById` never return a plugin together
with an error, and a plugin they return has a non-empty `Id`; `Create` and
`UpdateById` return exactly one of the two, and `GetById` can return
neither. -/
theorem results_shape (send : Request → Outcome) (c : PluginClient) (id : String)
    (r : PluginRequest) :
    ((PluginClient.GetById send c id).1 = none ∨ (PluginClient.GetById send c id).2 = none)
      ∧ (∀ p, (PluginClient.GetById send c id).1 = some p → p.Id ≠ "")
      ∧ (((PluginClient.Create send c r).1 ≠ none ∧ (PluginClient.Create send c r).2 = none)
          ∨ ((PluginClient.Create send c r).1 = none ∧ (PluginClient.Create send c r).2 ≠ none))
      ∧ (∀ p, (PluginClient.Create send c r).1 = some p → p.Id ≠ "")
      ∧ (((PluginClient.UpdateById send c id r).1 ≠ none
            ∧ (PluginClient.UpdateById send c id r).2 = none)
          ∨ ((PluginClient.UpdateById send c id r).1 = none
            ∧ (PluginClient.UpdateById send c id r).2 ≠ none))
      ∧ (∀ p, (PluginClient.UpdateById send c id r).1 = some p → p.Id ≠ "")
      ∧ PluginClient.GetById (fun _ => Outcome.done ⟨200, ""⟩ "\x7b\x7d") c id = (none, none) := by
  refine ⟨?_, ?_, ?_, ?_, ?_, ?_, rfl⟩
  · unfold PluginClient.GetById
    cases send (getByIdRequest c id) with
    | failed res body errs => simp
    | done res body =>
      rcases h : unmarshalPlugin body Plugin.zero with ⟨p, _ | e⟩
      · by_cases hid : p.Id = "" <;> simp [h, hid]
      · simp [h]
  · unfold PluginClient.GetById
    cases send (getByIdRequest c id) with
    | failed res body errs => simp
    | done res body =>
      rcases h : unmarshalPlugin body Plugin.zero with ⟨p, _ | e⟩
      · by_cases hid : p.Id = ""
        · simp [h, hid]
        · simp only [h, hid, if_false]
          intro q hq
          cases hq
          exact hid
      · simp [h]
  · unfold PluginClient.Create
    cases send (createRequest c r) with
    | failed res body errs => simp
    | done res body =>
      rcases h : unmarshalPlugin body Plugin.zero with ⟨p, _ | e⟩
      · by_cases hid : p.Id = "" <;> simp [h, hid]
      · simp [h]
  · unfold PluginClient.Create
    cases send (createRequest c r) with
    | failed res body errs => simp
    | done res body =>
      rcases h : unmarshalPlugin body Plugin.zero with ⟨p, _ | e⟩
      · by_cases hid : p.Id = ""
        · simp [h, hid]
        · simp only [h, hid, if_false]
          intro q hq
          cases hq
          exact hid
      · simp [h]
  · unfold PluginClient.UpdateById
    cases send (updateByIdRequest c id r) with
    | failed res body errs => simp
    | done res body =>
      rcases h : unmarshalPlugin body Plugin.zero with ⟨p, _ | e⟩
      · by_cases hid : p.Id = "" <;> simp [h, hid]
      · simp [h]
  · unfold PluginClient.UpdateById
    cases send (updateByIdRequest c id r) with
    | failed res body errs => simp
    | done res body =>
      rcases h : unmarshalPlugin body Plugin.zero with ⟨p, _ | e⟩
      · by_cases hid : p.Id = ""
        · simp [h, hid]
        · simp only [h, hid, if_false]
          intro q hq
          cases hq
          exact hid
      · simp [h]

/-! ### Default values of schema fields -/

/-- The cases of C5 on objects with at most one member: no `default` member
and a `null` one give false; `false`, `0`, the empty string, the empty array
and the empty object give true. -/
theorem hasDefaultValue_examples :
    (decodeSchemaField none (JSON.obj [("type", JSON.str "string")])
        PluginSchemaField.zero none).1.HasDefaultValue = false
      ∧ (decodeSchemaField none (JSON.obj [("default", JSON.null)])
        PluginSchemaField.zero none).1.HasDefaultValue = false
      ∧ (decodeSchemaField none (JSON.obj [("default", JSON.bool false)])
        PluginSchemaField.zero none).1.HasDefaultValue = true
      ∧ (decodeSchemaField none (JSON.obj [("default", JSON.num "0")])
        PluginSchemaField.zero none).1.HasDefaultValue = true
      ∧ (decodeSchemaField none (JSON.obj [("default", JSON.str "")])
        PluginSchemaField.zero none).1.HasDefaultValue = true
      ∧ (decodeSchemaField none (JSON.obj [("default", JSON.arr [])])
        PluginSchemaField.zero none).1.HasDefaultValue = true
      ∧ (decodeSchemaField none (JSON.obj [("default", JSON.obj [])])
        PluginSchemaField.zero none).1.HasDefaultValue = true :=
  ⟨rfl, rfl, rfl, rfl, rfl, rfl, rfl⟩

/-! ### The query string of a filter -/

/-- The address of scenario S5, names and values written as they are, and the
address of `List`. -/
theorem listFiltered_examples :
    listFilteredAddress (fun t => t) ⟨⟨"http://kong:8001"⟩⟩ (some ⟨"", "cors", "", "", 10, 0⟩)
        = ("http://kong:8001/plugins/?name=cors&size=10", none)
      ∧ listFilteredAddress (fun t => t) ⟨⟨"http://kong:8001"⟩⟩ none
        = ("http://kong:8001/plugins/", none) :=
  ⟨rfl, rfl⟩

/-! ### The scanner reads back the text `json.Marshal` writes -/

/-- A hexadecimal digit has the value it was written for. -/
theorem hexVal_hexDigit (n : Nat) (h : n < 16) : hexVal (hexDigit n) = some n := by
  interval_cases n <;> rfl

/-- The scanner reads back the four hexadecimal digits of a number below 65536. -/
theorem scanHex4_hex4 (n : Nat) (h : n < 65536) (rest : List Char) :
    scanHex4 (hex4 n ++ rest) = .ok (n, rest) := by
  have h1 : n / 4096 % 16 < 16 := Nat.mod_lt _ (by norm_num)
  have h2 : n / 256 % 16 < 16 := Nat.mod_lt _ (by norm_num)
  have h3 : n / 16 % 16 < 16 := Nat.mod_lt _ (by norm_num)
  have h4 : n % 16 < 16 := Nat.mod_lt _ (by norm_num)
  simp only [hex4, List.cons_append, List.nil_append, scanHex4, hexVal_hexDigit _ h1,
    hexVal_hexDigit _ h2, hexVal_hexDigit _ h3, hexVal_hexDigit _ h4]
  congr 2
  omega


/-- A character is determined by its code point. -/
theorem char_eq_of_toNat (c : Char) (n : Nat) (h : c.toNat = n) : c = Char.ofNat n := by
  rw [← h, Char.ofNat_toNat]

/-- The scanner reads the escaped characters of a string, up to the closing quote, as
their units. -/
theorem scanUnits_escape (s : List Char) :
    ∀ (fuel : Nat) (acc : List StrUnit) (rest : List Char), s.length < fuel →
      scanUnits fuel (escapeChars s ++ Char.ofNat 34 :: rest) acc
        = .ok (acc.reverse ++ s.map unitOf, rest) := by
  induction s with
  | nil =>
    intro fuel acc rest hf
    obtain ⟨f, rfl⟩ : ∃ f, fuel = f + 1 := ⟨fuel - 1, by simp at hf; omega⟩
    simp [escapeChars, scanUnits]
  | cons c cs ih =>
    intro fuel acc rest hf
    obtain ⟨f, rfl⟩ : ∃ f, fuel = f + 1 := ⟨fuel - 1, by simp at hf; omega⟩
    have hf2 : cs.length < f := by simp at hf; omega
    have hbs : (Char.ofNat 92).toNat = 92 := rfl
    by_cases h1 : c.toNat = 34
    · have hc := char_eq_of_toNat c 34 h1
      subst hc
      simp only [escapeChars, escapeChar, unitOf, List.map_cons]
      simp [scanUnits, simpleEscape, ih f _ rest hf2]
    · by_cases h2 : c.toNat = 92
      · have hc := char_eq_of_toNat c 92 h2
        subst hc
        simp only [escapeChars, escapeChar, unitOf, List.map_cons]
        simp [scanUnits, simpleEscape, ih f _ rest hf2]
      · by_cases h3 : c.toNat = 10
        · have hc := char_eq_of_toNat c 10 h3
          subst hc
          simp only [escapeChars, escapeChar, unitOf, List.map_cons]
          simp [scanUnits, simpleEscape, ih f _ rest hf2]
        · by_cases h4 : c.toNat = 13
          · have hc := char_eq_of_toNat c 13 h4
            subst hc
            simp only [escapeChars, escapeChar, unitOf, List.map_cons]
            simp [scanUnits, simpleEscape, ih f _ rest hf2]
          · by_cases h5 : c.toNat = 9
            · have hc := char_eq_of_toNat c 9 h5
              subst hc
              simp only [escapeChars, escapeChar, unitOf, List.map_cons]
              simp [scanUnits, simpleEscape, ih f _ rest hf2]
            · by_cases h6 : c.toNat < 32 ∨ c.toNat = 60 ∨ c.toNat = 62 ∨ c.toNat = 38
                  ∨ c.toNat = 8232 ∨ c.toNat = 8233
              · have hn : c.toNat < 65536 := by omega
                have he : escapeChar c = Char.ofNat 92 :: 'u' :: hex4 c.toNat := by
                  simp only [escapeChar, h1, h2, h3, h4, h5]
                  simp
                  omega
                have hu : unitOf c = StrUnit.esc c.toNat := by
                  simp only [unitOf, h1, h2, h3, h4, h5]
                  simp
                  omega
                simp only [escapeChars, he, hu, List.map_cons, List.cons_append, List.append_assoc]
                rw [scanUnits]
                simp only [hbs]
                have hsu : simpleEscape 'u' = none := rfl
                simp only [hsu, scanHex4_hex4 _ hn, ih f _ rest hf2]
                simp
              · have he : escapeChar c = [c] := by
                  simp only [escapeChar, h1, h2, h3, h4, h5]
                  simp
                  omega
                have hu : unitOf c = StrUnit.lit c := by
                  simp only [unitOf, h1, h2, h3, h4, h5]
                  simp
                  omega
                have h32 : ¬ c.toNat < 32 := by omega
                simp only [escapeChars, he, hu, List.map_cons, List.cons_append, List.nil_append]
                simp [scanUnits, h1, h2, h32, ih f _ rest hf2]

/-- The units of an escaped string spell the string. -/
theorem unitsToChars_unitOf (s : List Char) : unitsToChars (s.map unitOf) none = s := by
  induction s with
  | nil => rfl
  | cons c cs ih =>
    simp only [List.map_cons]
    by_cases h : unitOf c = StrUnit.lit c
    · rw [h, unitsToChars, ih]
    · have hu : unitOf c = StrUnit.esc c.toNat ∧ (c.toNat < 32 ∨ c.toNat = 60 ∨ c.toNat = 62
          ∨ c.toNat = 38 ∨ c.toNat = 8232 ∨ c.toNat = 8233) := by
        unfold unitOf at h ⊢
        split_ifs at h ⊢ with h1 h2
        · exact absurd rfl h
        · simp at h2
          exact ⟨rfl, by omega⟩
        · exact absurd rfl h
      rw [hu.1, unitsToChars]
      have ha : ¬ (55296 ≤ c.toNat ∧ c.toNat < 56320) := by omega
      have hb : ¬ (56320 ≤ c.toNat ∧ c.toNat < 57344) := by omega
      simp [ha, hb, ih]

/-- The scanner reads back a string literal. -/
theorem scanString_render (s : String) (rest : List Char) :
    scanString (escapeChars s.data ++ Char.ofNat 34 :: rest) = .ok (s, rest) := by
  unfold scanString
  rw [scanUnits_escape s.data _ [] rest]
  · simp [unitsToChars_unitOf]
  · have hlen : ∀ t : List Char, t.length ≤ (escapeChars t).length := by
      intro t
      induction t with
      | nil => simp [escapeChars]
      | cons c cs ih =>
        have hc : 1 ≤ (escapeChar c).length := by
          unfold escapeChar
          split_ifs <;> simp
        simp only [escapeChars, List.length_append, List.length_cons]
        omega
    have := hlen s.data
    simp only [List.length_append, List.length_cons]
    omega


/-- What may follow a value is no part of a number and no white space. -/
theorem stop_head (c : Char) (r : List Char) (h : Stop (c :: r)) :
    isDigit c = false ∧ c ≠ '.' ∧ c ≠ 'e' ∧ c ≠ 'E' ∧ c ≠ '+' ∧ c ≠ '-' ∧ isSpace c = false := by
  have h2 : c = ',' ∨ c = ']' ∨ c = Char.ofNat 125 := by
    rcases h with h | h | h
    · exact Or.inl h
    · exact Or.inr (Or.inl h)
    · exact Or.inr (Or.inr (char_eq_of_toNat c 125 h))
  rcases h2 with rfl | rfl | rfl <;> decide

/-- Text put behind a run of digits that does not start with a digit is left by
`spanDigits`. -/
theorem spanDigits_append (cs rest : List Char)
    (h : (spanDigits cs).2 = [] → ∀ c r, rest = c :: r → isDigit c = false) :
    spanDigits (cs ++ rest) = ((spanDigits cs).1, (spanDigits cs).2 ++ rest) := by
  induction cs with
  | nil =>
    cases rest with
    | nil => rfl
    | cons c r =>
      have hd := h rfl c r rfl
      simp [spanDigits, hd]
  | cons c cs ih =>
    by_cases hd : isDigit c = true
    · have ih2 := ih (by simpa [spanDigits, hd] using h)
      simp [spanDigits, hd, ih2]
    · simp [spanDigits, hd]

/-- What may follow a value does not start with a digit. -/
theorem stop_noDigit (rest : List Char) (r : List Char) (hs : r = [] → Stop rest) :
    r = [] → ∀ c r2, rest = c :: r2 → isDigit c = false := by
  intro h0 c r2 hr
  have := hs h0
  rw [hr] at this
  exact (stop_head c r2 this).1

/-- Reading an exponent is not changed by text put behind it. -/
theorem scanExponent_append (pre cs rest : List Char) (l r : List Char)
    (h : scanExponent pre cs = .ok (l, r)) (hs : r = [] → Stop rest) :
    scanExponent pre (cs ++ rest) = .ok (l, r ++ rest) := by
  cases cs with
  | nil => simp [scanExponent] at h
  | cons c r0 =>
    by_cases hsign : c = '+' ∨ c = '-'
    · cases r0 with
      | nil => simp [scanExponent, hsign] at h
      | cons d r1 =>
        by_cases hd : isDigit d = true
        · simp only [scanExponent, hsign, decide_True, Bool.or_self, if_true, hd,
            Bool.or_eq_true, decide_eq_true_eq, Except.ok.injEq, Prod.mk.injEq] at h
          obtain ⟨rfl, rfl⟩ := h
          have hsp := spanDigits_append (d :: r1) rest (stop_noDigit rest _ hs)
          rw [List.cons_append] at hsp
          simp [scanExponent, hsign, hd, hsp]
        · simp [scanExponent, hsign, hd] at h
    · by_cases hd : isDigit c = true
      · simp only [scanExponent, hsign, decide_False, Bool.or_self, if_false, hd,
          Bool.or_eq_true, decide_eq_true_eq, Except.ok.injEq, Prod.mk.injEq, if_true] at h
        obtain ⟨rfl, rfl⟩ := h
        have hsp := spanDigits_append (c :: r0) rest (stop_noDigit rest _ hs)
        rw [List.cons_append] at hsp
        simp [scanExponent, hsign, hd, hsp]
      · simp [scanExponent, hsign, hd] at h

/-- Reading a fraction and an exponent is not changed by text put behind them. -/
theorem scanFraction_append (pre cs rest : List Char) (l r : List Char)
    (h : scanFraction pre cs = .ok (l, r)) (hs : r = [] → Stop rest) :
    scanFraction pre (cs ++ rest) = .ok (l, r ++ rest) := by
  cases cs with
  | nil =>
    simp only [scanFraction, Except.ok.injEq, Prod.mk.injEq] at h
    obtain ⟨rfl, rfl⟩ := h
    cases rest with
    | nil => simp [scanFraction]
    | cons c r2 =>
      have hc := stop_head c r2 (hs rfl)
      simp [scanFraction, hc.2.1, hc.2.2.1, hc.2.2.2.1]
  | cons c r0 =>
    by_cases hdot : c = '.'
    · subst hdot
      cases r0 with
      | nil => simp [scanFraction] at h
      | cons d r1 =>
        by_cases hd : isDigit d = true
        · simp only [scanFraction, if_true, hd] at h
          have hsp := spanDigits_append (d :: r1) rest
          rw [List.cons_append] at hsp
          rcases hsd : spanDigits (d :: r1) with ⟨a, b⟩
          rw [hsd] at h hsp
          cases b with
          | nil =>
            simp only [Except.ok.injEq, Prod.mk.injEq] at h
            obtain ⟨rfl, rfl⟩ := h
            have hsp2 := hsp (stop_noDigit rest _ hs)
            simp only [List.nil_append] at hsp2
            cases rest with
            | nil => simp [scanFraction, hd, hsd]
            | cons c r2 =>
              have hc := stop_head c r2 (hs rfl)
              simp [scanFraction, hd, hsp2, hc.2.2.1, hc.2.2.2.1]
          | cons e r3 =>
            have hsp2 := hsp (by simp)
            by_cases he : e = 'e' ∨ e = 'E'
            · simp only [he, decide_True, Bool.or_self, if_true, Bool.or_eq_true,
                decide_eq_true_eq] at h
              have := scanExponent_append _ _ rest l r h hs
              simp only [List.append_assoc, List.cons_append, List.nil_append] at this
              simp [scanFraction, hd, hsp2, he, this]
            · simp only [he, decide_False, Bool.or_self, if_false, Bool.or_eq_true,
                decide_eq_true_eq, Except.ok.injEq, Prod.mk.injEq] at h
              obtain ⟨rfl, rfl⟩ := h
              simp [scanFraction, hd, hsp2, he]
        · simp [scanFraction, hd] at h
    · by_cases he : c = 'e' ∨ c = 'E'
      · simp only [scanFraction, hdot, if_false, he, decide_True, Bool.or_self, if_true,
          Bool.or_eq_true, decide_eq_true_eq] at h
        have := scanExponent_append _ _ rest l r h hs
        simp [scanFraction, hdot, he, this]
      · simp only [scanFraction, hdot, if_false, he, decide_False, Bool.or_self,
          Bool.or_eq_true, decide_eq_true_eq, Except.ok.injEq, Prod.mk.injEq] at h
        obtain ⟨rfl, rfl⟩ := h
        simp [scanFraction, hdot, he]


/-- A number is read when its characters are. -/
theorem wrap_ok (x : Scan (List Char)) (lit : String) (r : List Char)
    (h : (match x with
          | .error msg => (Except.error msg : Scan String)
          | .ok (l, r2) => .ok (String.mk l, r2)) = .ok (lit, r)) :
    x = .ok (lit.data, r) := by
  rcases x with msg | ⟨l, r2⟩
  · simp at h
  · simp only [Except.ok.injEq, Prod.mk.injEq] at h
    obtain ⟨rfl, rfl⟩ := h
    rfl

/-- Reading the digits of a number is not changed by text put behind them. -/
theorem scanNumber_body_append (pre : List Char) (d : Char) (r0 rest : List Char)
    (l : List Char)
    (h : (if d = '0' then scanFraction (pre ++ [d]) r0
          else scanFraction (pre ++ [d] ++ (spanDigits r0).1) (spanDigits r0).2) = .ok (l, []))
    (hs : Stop rest) :
    (if d = '0' then scanFraction (pre ++ [d]) (r0 ++ rest)
      else scanFraction (pre ++ [d] ++ (spanDigits (r0 ++ rest)).1) (spanDigits (r0 ++ rest)).2)
      = .ok (l, rest) := by
  by_cases h0 : d = '0'
  · simp only [h0, if_true] at h ⊢
    simpa using scanFraction_append _ _ rest l [] h (fun _ => hs)
  · simp only [h0, if_false] at h ⊢
    have hsp : spanDigits (r0 ++ rest) = ((spanDigits r0).1, (spanDigits r0).2 ++ rest) := by
      apply spanDigits_append
      intro _ c r hr
      rw [hr] at hs
      exact (stop_head c r hs).1
    rw [hsp]
    simpa using scanFraction_append _ _ rest l [] h (fun _ => hs)

/-- Reading a number is not changed by text put behind it. -/
theorem scanNumber_append (c : Char) (cs rest : List Char) (lit : String)
    (h : scanNumber c cs = .ok (lit, [])) (hs : Stop rest) :
    scanNumber c (cs ++ rest) = .ok (lit, rest) := by
  unfold scanNumber at h ⊢
  simp only at h ⊢
  have h2 := wrap_ok _ _ _ h
  by_cases hm : c = '-'
  · subst hm
    cases cs with
    | nil => simp at h2
    | cons d r0 =>
      by_cases hd : isDigit d = true
      · simp only [if_true, hd] at h2
        have h3 := scanNumber_body_append ['-'] d r0 rest lit.data h2 hs
        simp only [if_true, hd, List.cons_append] at h3 ⊢
        rw [h3]
      · simp [hd] at h2
  · simp only [hm, if_false] at h2 ⊢
    rw [scanNumber_body_append _ c cs rest _ h2 hs]


/-- The code points of the digits. -/
theorem isDigit_bounds (c : Char) (h : isDigit c = true) : 48 ≤ c.toNat ∧ c.toNat ≤ 57 := by
  simpa [isDigit] using h

/-- The first character of a value is no white space, no closing bracket, no closing
brace and no comma. -/
theorem valueStart_facts (c : Char) (h : ValueStart c) :
    isSpace c = false ∧ c ≠ ']' ∧ c.toNat ≠ 125 ∧ c ≠ ',' := by
  have hsp : isSpace c = false ↔ (c.toNat ≠ 32 ∧ c.toNat ≠ 9 ∧ c.toNat ≠ 13 ∧ c.toNat ≠ 10) := by
    simp [isSpace, and_assoc]
  have hne : ∀ d : Char, c.toNat ≠ d.toNat → c ≠ d := fun d hd hcd => hd (by rw [hcd])
  rcases h with h | h | h | h | h | h | h | h
  · refine ⟨hsp.2 (by omega), hne _ ?_, by omega, hne _ ?_⟩ <;> simp [h]
  · subst h; decide
  · refine ⟨hsp.2 (by omega), hne _ ?_, by omega, hne _ ?_⟩ <;> simp [h]
  · subst h; decide
  · have hb := isDigit_bounds c h
    refine ⟨hsp.2 (by omega), hne _ ?_, by omega, hne _ ?_⟩
    · show c.toNat ≠ 93
      omega
    · show c.toNat ≠ 44
      omega
  · subst h; decide
  · subst h; decide
  · subst h; decide

/-- The text of a value starts with a character a value can start with. -/
theorem renderValue_head (v : JSON) (hv : v.NumbersValid) :
    ∃ c t, renderValue v = c :: t ∧ ValueStart c := by
  cases v with
  | null => exact ⟨_, _, rfl, by simp [ValueStart]⟩
  | bool b => cases b <;> exact ⟨_, _, rfl, by simp [ValueStart]⟩
  | num lit =>
    obtain ⟨c, cs, h1, h2, _⟩ := (by simpa [JSON.NumbersValid] using hv : ValidNumber lit)
    refine ⟨c, cs, by simp [renderValue, h1], ?_⟩
    rcases h2 with h2 | h2
    · exact Or.inr (Or.inr (Or.inr (Or.inl h2)))
    · exact Or.inr (Or.inr (Or.inr (Or.inr (Or.inl h2))))
  | str x => exact ⟨_, _, rfl, Or.inr (Or.inr (Or.inl rfl))⟩
  | arr items => exact ⟨_, _, rfl, Or.inr (Or.inl rfl)⟩
  | obj members => exact ⟨_, _, rfl, Or.inl rfl⟩

/-- Nothing is skipped before a character that is no white space. -/
theorem skipSpace_cons (c : Char) (t : List Char) (h : isSpace c = false) :
    skipSpace (c :: t) = c :: t := by
  simp [skipSpace, h]

/-- The scanner reads back a number. -/
theorem scanValue_num (f : Nat) (lit : String) (rest : List Char) (hv : ValidNumber lit)
    (hs : Stop rest) : scanValue (f + 1) (lit.data ++ rest) = .ok (JSON.num lit, rest) := by
  obtain ⟨c, cs, h1, h2, h3⟩ := hv
  have hn := scanNumber_append c cs rest lit h3 hs
  have hc : c.toNat ≠ 123 ∧ c ≠ '[' ∧ c.toNat ≠ 34 ∧ (c = '-' ∨ isDigit c = true) := by
    rcases h2 with h2 | h2
    · subst h2; exact ⟨by decide, by decide, by decide, Or.inl rfl⟩
    · have hb := isDigit_bounds c h2
      refine ⟨by omega, ?_, by omega, Or.inr h2⟩
      intro hc
      rw [hc] at hb
      simp at hb
  rw [h1, List.cons_append, scanValue]
  simp [hc.1, hc.2.1, hc.2.2.1, hc.2.2.2, hn]

/-- The scanner reads back a string. -/
theorem scanValue_str (f : Nat) (s : String) (rest : List Char) :
    scanValue (f + 1) (renderString s ++ rest) = .ok (JSON.str s, rest) := by
  have h := scanString_render s rest
  simp only [renderString, List.cons_append, List.append_assoc, List.singleton_append]
  rw [scanValue]
  have h1 : (Char.ofNat 34).toNat ≠ 123 := by decide
  have h2 : Char.ofNat 34 ≠ '[' := by decide
  have h3 : (Char.ofNat 34).toNat = 34 := rfl
  simp [h1, h2, h3, h]

/-- Reading the last item of an array. -/
theorem scanItems_last (f : Nat) (x : JSON) (rest : List Char) (acc : List JSON)
    (h : scanValue f (renderValue x ++ ']' :: rest) = .ok (x, ']' :: rest)) :
    scanItems (f + 1) (renderValue x ++ ']' :: rest) acc
      = .ok (JSON.arr (acc.reverse ++ [x]), rest) := by
  rw [scanItems]
  simp only [h]
  have hs : skipSpace (']' :: rest) = ']' :: rest := skipSpace_cons _ _ (by decide)
  simp [hs]

/-- Reading an item of an array that is followed by another. -/
theorem scanItems_more (f : Nat) (x : JSON) (c : Char) (t : List Char) (acc : List JSON)
    (hc : isSpace c = false)
    (h : scanValue f (renderValue x ++ ',' :: c :: t) = .ok (x, ',' :: c :: t)) :
    scanItems (f + 1) (renderValue x ++ ',' :: c :: t) acc = scanItems f (c :: t) (x :: acc) := by
  rw [scanItems]
  simp only [h]
  have hs : skipSpace (',' :: c :: t) = ',' :: c :: t := skipSpace_cons _ _ (by decide)
  simp [hs, skipSpace_cons c t hc]


/-- Reading the name and the value of a member. -/
theorem scanMembers_head (f : Nat) (k : String) (v : JSON) (X : List Char)
    (acc : List (String × JSON)) (hv : v.NumbersValid)
    (h : scanValue f (renderValue v ++ X) = .ok (v, X)) :
    scanMembers (f + 1) (renderString k ++ ':' :: (renderValue v ++ X)) acc
      = match skipSpace X with
        | [] => .error unexpectedEnd
        | e :: r3 =>
          if e = ',' then
            match skipSpace r3 with
            | [] => .error unexpectedEnd
            | r4 => scanMembers f r4 ((k, v) :: acc)
          else if e.toNat = 125 then .ok (JSON.obj ((k, v) :: acc).reverse, r3)
          else .error (invalidChar e "after object key:value pair") := by
  obtain ⟨c0, t0, hr, hst⟩ := renderValue_head v hv
  have hsp0 := (valueStart_facts c0 hst).1
  have hstr := scanString_render k (':' :: (renderValue v ++ X))
  simp only [renderString, List.cons_append, List.append_assoc, List.singleton_append]
  rw [scanMembers]
  have h3 : (Char.ofNat 34).toNat = 34 := rfl
  have hs1 : skipSpace (':' :: (renderValue v ++ X)) = ':' :: (renderValue v ++ X) :=
    skipSpace_cons _ _ (by decide)
  have hne : renderValue v ++ X = c0 :: (t0 ++ X) := by rw [hr, List.cons_append]
  have hs2 : skipSpace (c0 :: (t0 ++ X)) = c0 :: (t0 ++ X) := skipSpace_cons _ _ hsp0
  rw [hne] at h hs1 hstr
  rw [hne]
  simp [h3, hstr, hs1, hs2, h]

/-- Reading the last member of an object. -/
theorem scanMembers_last (f : Nat) (k : String) (v : JSON) (rest : List Char)
    (acc : List (String × JSON)) (hv : v.NumbersValid)
    (h : scanValue f (renderValue v ++ Char.ofNat 125 :: rest) = .ok (v, Char.ofNat 125 :: rest)) :
    scanMembers (f + 1) (renderString k ++ ':' :: (renderValue v ++ Char.ofNat 125 :: rest)) acc
      = .ok (JSON.obj (acc.reverse ++ [(k, v)]), rest) := by
  rw [scanMembers_head f k v _ acc hv h, skipSpace_cons _ _ (by decide)]
  have h1 : Char.ofNat 125 ≠ ',' := by decide
  have h2 : (Char.ofNat 125).toNat = 125 := rfl
  simp [h1, h2]

/-- Reading a member of an object that is followed by another. -/
theorem scanMembers_more (f : Nat) (k : String) (v : JSON) (c : Char) (t : List Char)
    (acc : List (String × JSON)) (hv : v.NumbersValid) (hc : isSpace c = false)
    (h : scanValue f (renderValue v ++ ',' :: c :: t) = .ok (v, ',' :: c :: t)) :
    scanMembers (f + 1) (renderString k ++ ':' :: (renderValue v ++ ',' :: c :: t)) acc
      = scanMembers f (c :: t) ((k, v) :: acc) := by
  rw [scanMembers_head f k v _ acc hv h, skipSpace_cons _ _ (by decide)]
  simp [skipSpace_cons c t hc]

/-- The scanner reads `null`. -/
theorem scanValue_null (f : Nat) (rest : List Char) :
    scanValue (f + 1) ('n' :: 'u' :: 'l' :: 'l' :: rest) = .ok (JSON.null, rest) := by
  have h : isDigit 'n' = false := by decide
  simp [scanValue, scanLiteral, h]

/-- The scanner reads `true`. -/
theorem scanValue_true (f : Nat) (rest : List Char) :
    scanValue (f + 1) ('t' :: 'r' :: 'u' :: 'e' :: rest) = .ok (JSON.bool true, rest) := by
  have h : isDigit 't' = false := by decide
  simp [scanValue, scanLiteral, h]

/-- The scanner reads `false`. -/
theorem scanValue_false (f : Nat) (rest : List Char) :
    scanValue (f + 1) ('f' :: 'a' :: 'l' :: 's' :: 'e' :: rest) = .ok (JSON.bool false, rest) := by
  have h : isDigit 'f' = false := by decide
  simp [scanValue, scanLiteral, h]

/-- Reading an array that has items. -/
theorem scanValue_arr (f : Nat) (c : Char) (t : List Char) (hc : ValueStart c) :
    scanValue (f + 1) ('[' :: c :: t) = scanItems f (c :: t) [] := by
  have hf := valueStart_facts c hc
  rw [scanValue]
  have h1 : ('[' : Char).toNat ≠ 123 := by decide
  simp [h1, skipSpace_cons c t hf.1, hf.2.1]

/-- Reading an object that has members. -/
theorem scanValue_obj (f : Nat) (t : List Char) :
    scanValue (f + 1) (Char.ofNat 123 :: Char.ofNat 34 :: t)
      = scanMembers f (Char.ofNat 34 :: t) [] := by
  rw [scanValue]
  have h1 : (Char.ofNat 123).toNat = 123 := rfl
  have h2 : (Char.ofNat 34).toNat ≠ 125 := by decide
  simp [h1, h2, skipSpace_cons (Char.ofNat 34) t (by decide)]

mutual
/-- The scanner reads back the text of a value. -/
theorem scanValue_render :
    ∀ (v : JSON) (rest : List Char) (fuel : Nat), v.NumbersValid → Stop rest →
      2 * (renderValue v).length ≤ fuel →
      scanValue fuel (renderValue v ++ rest) = .ok (v, rest)
  | JSON.null, rest, fuel, _, _, hf => by
    obtain ⟨f, rfl⟩ : ∃ f, fuel = f + 1 := ⟨fuel - 1, by simp [renderValue] at hf; omega⟩
    exact scanValue_null f rest
  | JSON.bool true, rest, fuel, _, _, hf => by
    obtain ⟨f, rfl⟩ : ∃ f, fuel = f + 1 := ⟨fuel - 1, by simp [renderValue] at hf; omega⟩
    exact scanValue_true f rest
  | JSON.bool false, rest, fuel, _, _, hf => by
    obtain ⟨f, rfl⟩ : ∃ f, fuel = f + 1 := ⟨fuel - 1, by simp [renderValue] at hf; omega⟩
    exact scanValue_false f rest
  | JSON.num lit, rest, fuel, hv, hs, hf => by
    have hv2 : ValidNumber lit := by simpa [JSON.NumbersValid] using hv
    obtain ⟨c, cs, h1, _, _⟩ := id hv2
    obtain ⟨f, rfl⟩ : ∃ f, fuel = f + 1 :=
      ⟨fuel - 1, by simp [renderValue, h1] at hf; omega⟩
    simpa [renderValue] using scanValue_num f lit rest hv2 hs
  | JSON.str s, rest, fuel, _, _, hf => by
    obtain ⟨f, rfl⟩ : ∃ f, fuel = f + 1 :=
      ⟨fuel - 1, by simp [renderValue, renderString] at hf; omega⟩
    simpa [renderValue] using scanValue_str f s rest
  | JSON.arr [], rest, fuel, _, _, hf => by
    obtain ⟨f, rfl⟩ : ∃ f, fuel = f + 1 :=
      ⟨fuel - 1, by simp [renderValue, renderItems] at hf; omega⟩
    simp [renderValue, renderItems, scanValue, skipSpace, isSpace]
  | JSON.arr (x :: xs), rest, fuel, hv, _, hf => by
    obtain ⟨f, rfl⟩ : ∃ f, fuel = f + 1 :=
      ⟨fuel - 1, by simp [renderValue, renderItems] at hf; omega⟩
    have hv2 : numbersValidItems (x :: xs) := by simpa [JSON.NumbersValid] using hv
    have hx : x.NumbersValid := by
      simp only [numbersValidItems] at hv2
      exact hv2.1
    obtain ⟨c0, t0, hr, hst⟩ := renderValue_head x hx
    have hitems := scanItems_render (x :: xs) rest f [] (by simp) hv2
      (by simp [renderValue] at hf; omega)
    have hhead : renderItems (x :: xs) ++ ']' :: rest
        = c0 :: (t0 ++ renderMoreItems xs ++ ']' :: rest) := by
      simp [renderItems, hr]
    have hall : renderValue (JSON.arr (x :: xs)) ++ rest
        = '[' :: c0 :: (t0 ++ renderMoreItems xs ++ ']' :: rest) := by
      simp [renderValue, renderItems, hr]
    rw [hall, scanValue_arr f c0 _ hst, ← hhead, hitems]
    simp
  | JSON.obj [], rest, fuel, _, _, hf => by
    obtain ⟨f, rfl⟩ : ∃ f, fuel = f + 1 :=
      ⟨fuel - 1, by simp [renderValue, renderMembers] at hf; omega⟩
    simp [renderValue, renderMembers, scanValue, skipSpace, isSpace]
  | JSON.obj ((k, v) :: ms), rest, fuel, hv, _, hf => by
    obtain ⟨f, rfl⟩ : ∃ f, fuel = f + 1 :=
      ⟨fuel - 1, by simp [renderValue, renderMembers] at hf; omega⟩
    have hv2 : numbersValidMembers ((k, v) :: ms) := by simpa [JSON.NumbersValid] using hv
    have hmembers := scanMembers_render ((k, v) :: ms) rest f [] (by simp) hv2
      (by simp [renderValue] at hf; omega)
    have hhead : renderMembers ((k, v) :: ms) ++ Char.ofNat 125 :: rest
        = Char.ofNat 34 :: (escapeChars k.data ++ Char.ofNat 34 :: ':' ::
            (renderValue v ++ renderMoreMembers ms ++ Char.ofNat 125 :: rest)) := by
      simp [renderMembers, renderString]
    have hall : renderValue (JSON.obj ((k, v) :: ms)) ++ rest
        = Char.ofNat 123 :: Char.ofNat 34 :: (escapeChars k.data ++ Char.ofNat 34 :: ':' ::
            (renderValue v ++ renderMoreMembers ms ++ Char.ofNat 125 :: rest)) := by
      simp [renderValue, renderMembers, renderString]
    rw [hall, scanValue_obj f _, ← hhead, hmembers]
    simp
/-- The scanner reads back the items of an array. -/
theorem scanItems_render :
    ∀ (items : List JSON) (rest : List Char) (fuel : Nat) (acc : List JSON), items ≠ [] →
      numbersValidItems items → 2 * (renderItems items).length + 1 ≤ fuel →
      scanItems fuel (renderItems items ++ ']' :: rest) acc
        = .ok (JSON.arr (acc.reverse ++ items), rest)
  | [], _, _, _, hne, _, _ => absurd rfl hne
  | [x], rest, fuel, acc, _, hv, hf => by
    obtain ⟨f, rfl⟩ : ∃ f, fuel = f + 1 := ⟨fuel - 1, by omega⟩
    simp only [numbersValidItems] at hv
    have hx := scanValue_render x (']' :: rest) f hv.1 (Or.inr (Or.inl rfl))
      (by simp [renderItems, renderMoreItems] at hf; omega)
    simpa [renderItems, renderMoreItems] using scanItems_last f x rest acc hx
  | x :: y :: ys, rest, fuel, acc, _, hv, hf => by
    obtain ⟨f, rfl⟩ : ∃ f, fuel = f + 1 := ⟨fuel - 1, by omega⟩
    simp only [numbersValidItems] at hv
    obtain ⟨c0, t0, hr, hst⟩ := renderValue_head y hv.2.1
    have hlen : (renderItems (x :: y :: ys)).length
        = (renderValue x).length + 1 + (renderItems (y :: ys)).length := by
      simp [renderItems, renderMoreItems]
      omega
    have htail : renderItems (x :: y :: ys) ++ ']' :: rest
        = renderValue x ++ ',' :: c0 :: (t0 ++ renderMoreItems ys ++ ']' :: rest) := by
      simp [renderItems, renderMoreItems, hr]
    have hx := scanValue_render x (',' :: c0 :: (t0 ++ renderMoreItems ys ++ ']' :: rest)) f
      hv.1 (Or.inl rfl) (by omega)
    have hrest := scanItems_render (y :: ys) rest f (x :: acc) (by simp)
      (by simp only [numbersValidItems]; exact hv.2) (by omega)
    rw [htail, scanItems_more f x c0 _ acc (valueStart_facts c0 hst).1 hx]
    have htail2 : renderItems (y :: ys) ++ ']' :: rest
        = c0 :: (t0 ++ renderMoreItems ys ++ ']' :: rest) := by
      simp [renderItems, hr]
    rw [htail2] at hrest
    rw [hrest]
    simp
/-- The scanner reads back the members of an object. -/
theorem scanMembers_render :
    ∀ (members : List (String × JSON)) (rest : List Char) (fuel : Nat)
      (acc : List (String × JSON)), members ≠ [] → numbersValidMembers members →
      2 * (renderMembers members).length + 1 ≤ fuel →
      scanMembers fuel (renderMembers members ++ Char.ofNat 125 :: rest) acc
        = .ok (JSON.obj (acc.reverse ++ members), rest)
  | [], _, _, _, hne, _, _ => absurd rfl hne
  | [(k, v)], rest, fuel, acc, _, hv, hf => by
    obtain ⟨f, rfl⟩ : ∃ f, fuel = f + 1 := ⟨fuel - 1, by omega⟩
    simp only [numbersValidMembers] at hv
    have hx := scanValue_render v (Char.ofNat 125 :: rest) f hv.1 (Or.inr (Or.inr rfl))
      (by simp [renderMembers, renderMoreMembers] at hf; omega)
    simpa [renderMembers, renderMoreMembers] using scanMembers_last f k v rest acc hv.1 hx
  | (k, v) :: (k2, v2) :: ms, rest, fuel, acc, _, hv, hf => by
    obtain ⟨f, rfl⟩ : ∃ f, fuel = f + 1 := ⟨fuel - 1, by omega⟩
    simp only [numbersValidMembers] at hv
    have hlen : (renderMembers ((k, v) :: (k2, v2) :: ms)).length
        = (renderString k).length + 1 + (renderValue v).length + 1
          + (renderMembers ((k2, v2) :: ms)).length := by
      simp [renderMembers, renderMoreMembers]
      omega
    have hq : renderMembers ((k2, v2) :: ms) ++ Char.ofNat 125 :: rest
        = Char.ofNat 34 :: (escapeChars k2.data ++ Char.ofNat 34 :: ':' ::
            (renderValue v2 ++ renderMoreMembers ms ++ Char.ofNat 125 :: rest)) := by
      simp [renderMembers, renderString]
    have htail : renderMembers ((k, v) :: (k2, v2) :: ms) ++ Char.ofNat 125 :: rest
        = renderString k ++ ':' :: (renderValue v ++ ',' :: Char.ofNat 34 ::
            (escapeChars k2.data ++ Char.ofNat 34 :: ':' ::
              (renderValue v2 ++ renderMoreMembers ms ++ Char.ofNat 125 :: rest))) := by
      simp [renderMembers, renderMoreMembers, renderString]
    have hx := scanValue_render v
      (',' :: Char.ofNat 34 :: (escapeChars k2.data ++ Char.ofNat 34 :: ':' ::
              (renderValue v2 ++ renderMoreMembers ms ++ Char.ofNat 125 :: rest))) f
      hv.1 (Or.inl rfl) (by omega)
    have hrest := scanMembers_render ((k2, v2) :: ms) rest f ((k, v) :: acc) (by simp)
      (by simp only [numbersValidMembers]; exact hv.2) (by omega)
    rw [htail, scanMembers_more f k v _ _ acc hv.1 (by decide) hx, ← hq, hrest]
    simp
end

/-- The function `spanDigits` splits a text into its leading digits and the rest. -/
theorem spanDigits_split (cs : List Char) :
    cs = (spanDigits cs).1 ++ (spanDigits cs).2
      ∧ spanDigits (spanDigits cs).1 = ((spanDigits cs).1, [])
      ∧ (∀ c r, (spanDigits cs).2 = c :: r → isDigit c = false) := by
  induction cs with
  | nil => simp [spanDigits]
  | cons c cs ih =>
    by_cases hd : isDigit c = true
    · simp only [spanDigits, hd, if_true]
      refine ⟨by simpa using ih.1, ?_, ih.2.2⟩
      simp [spanDigits, hd, ih.2.1]
    · simp only [spanDigits, hd]
      simp [spanDigits]
      simpa using hd


/-- The digits `spanDigits` takes are read whole on their own. -/
theorem spanDigits_digits (cs : List Char) (a r : List Char) (h : spanDigits cs = (a, r)) :
    cs = a ++ r ∧ spanDigits a = (a, []) := by
  have hs := spanDigits_split cs
  rw [h] at hs
  exact ⟨hs.1, hs.2.1⟩

/-- The part of a text read as an exponent is read whole on its own. -/
theorem scanExponent_used (pre cs l r : List Char) (h : scanExponent pre cs = .ok (l, r)) :
    ∃ used, cs = used ++ r ∧ l = pre ++ used ∧ scanExponent pre used = .ok (l, []) := by
  cases cs with
  | nil => simp [scanExponent] at h
  | cons c r0 =>
    by_cases hsign : c = '+' ∨ c = '-'
    · cases r0 with
      | nil => simp [scanExponent, hsign] at h
      | cons d r1 =>
        by_cases hd : isDigit d = true
        · simp only [scanExponent, hsign, decide_True, Bool.or_self, if_true, hd,
            Bool.or_eq_true, decide_eq_true_eq, Except.ok.injEq, Prod.mk.injEq] at h
          obtain ⟨rfl, rfl⟩ := h
          rcases hsd : spanDigits (d :: r1) with ⟨a, b⟩
          have hs := spanDigits_digits _ _ _ hsd
          have ha : ∃ a2, a = d :: a2 := by
            simp only [spanDigits, hd, if_true, Prod.mk.injEq] at hsd
            exact ⟨_, hsd.1.symm⟩
          obtain ⟨a2, rfl⟩ := ha
          refine ⟨c :: d :: a2, ?_, by simp, ?_⟩
          · simp only [List.cons_append]
            rw [← List.cons_append, ← hs.1]
          · simp [scanExponent, hsign, hd, hs.2]
        · simp [scanExponent, hsign, hd] at h
    · by_cases hd : isDigit c = true
      · simp only [scanExponent, hsign, decide_False, Bool.or_self, if_false, hd,
          Bool.or_eq_true, decide_eq_true_eq, Except.ok.injEq, Prod.mk.injEq, if_true] at h
        obtain ⟨rfl, rfl⟩ := h
        rcases hsd : spanDigits (c :: r0) with ⟨a, b⟩
        have hs := spanDigits_digits _ _ _ hsd
        have ha : ∃ a2, a = c :: a2 := by
          simp only [spanDigits, hd, if_true, Prod.mk.injEq] at hsd
          exact ⟨_, hsd.1.symm⟩
        obtain ⟨a2, rfl⟩ := ha
        refine ⟨c :: a2, hs.1, by simp, ?_⟩
        simp [scanExponent, hsign, hd, hs.2]
      · simp [scanExponent, hsign, hd] at h


/-- The part of a text read as a fraction and an exponent is read whole on its own. -/
theorem scanFraction_used (pre cs l r : List Char) (h : scanFraction pre cs = .ok (l, r)) :
    ∃ used, cs = used ++ r ∧ l = pre ++ used ∧ scanFraction pre used = .ok (l, []) := by
  cases cs with
  | nil =>
    simp only [scanFraction, Except.ok.injEq, Prod.mk.injEq] at h
    obtain ⟨rfl, rfl⟩ := h
    exact ⟨[], by simp, by simp, by simp [scanFraction]⟩
  | cons c r0 =>
    by_cases hdot : c = '.'
    · subst hdot
      cases r0 with
      | nil => simp [scanFraction] at h
      | cons d r1 =>
        by_cases hd : isDigit d = true
        · simp only [scanFraction, if_true, hd] at h
          rcases hsd : spanDigits (d :: r1) with ⟨a, b⟩
          have hs := spanDigits_digits _ _ _ hsd
          have hnd := (spanDigits_split (d :: r1)).2.2
          rw [hsd] at h hnd
          have ha : ∃ a2, a = d :: a2 := by
            simp only [spanDigits, hd, if_true, Prod.mk.injEq] at hsd
            exact ⟨_, hsd.1.symm⟩
          obtain ⟨a2, rfl⟩ := ha
          cases b with
          | nil =>
            simp only [Except.ok.injEq, Prod.mk.injEq] at h
            obtain ⟨rfl, rfl⟩ := h
            refine ⟨'.' :: d :: a2, by simpa using hs.1, by simp, ?_⟩
            simp [scanFraction, hd, hs.2]
          | cons e r3 =>
            by_cases he : e = 'e' ∨ e = 'E'
            · simp only [he, decide_True, Bool.or_self, if_true, Bool.or_eq_true,
                decide_eq_true_eq] at h
              obtain ⟨used, hu1, hu2, hu3⟩ := scanExponent_used _ _ _ _ h
              have hsp : spanDigits ((d :: a2) ++ e :: used) = (d :: a2, e :: used) := by
                have := spanDigits_append (d :: a2) (e :: used)
                  (fun _ c r hcr => by
                    simp only [List.cons.injEq] at hcr
                    rw [← hcr.1]
                    exact hnd e r3 rfl)
                rw [hs.2] at this
                simpa using this
              refine ⟨'.' :: (d :: a2) ++ e :: used, ?_, ?_, ?_⟩
              · rw [hs.1, hu1]
                simp
              · rw [hu2]
                simp
              · simp only [List.cons_append] at hsp
                simp only [List.append_assoc, List.cons_append, List.nil_append] at hu3
                simp [scanFraction, hd, hsp, he, hu3]
            · simp only [he, decide_False, Bool.or_self, if_false, Bool.or_eq_true,
                decide_eq_true_eq, Except.ok.injEq, Prod.mk.injEq] at h
              obtain ⟨rfl, rfl⟩ := h
              refine ⟨'.' :: d :: a2, by simpa using hs.1, by simp, ?_⟩
              simp [scanFraction, hd, hs.2]
        · simp [scanFraction, hd] at h
    · by_cases he : c = 'e' ∨ c = 'E'
      · simp only [scanFraction, hdot, if_false, he, decide_True, Bool.or_self, if_true,
          Bool.or_eq_true, decide_eq_true_eq] at h
        obtain ⟨used, hu1, hu2, hu3⟩ := scanExponent_used _ _ _ _ h
        refine ⟨c :: used, by simp [hu1], by simp [hu2], ?_⟩
        simp [scanFraction, hdot, he, hu3]
      · simp only [scanFraction, hdot, if_false, he, decide_False, Bool.or_self,
          Bool.or_eq_true, decide_eq_true_eq, Except.ok.injEq, Prod.mk.injEq] at h
        obtain ⟨rfl, rfl⟩ := h
        exact ⟨[], by simp, by simp, by simp [scanFraction]⟩

/-- The part of a text read as the digits of a number is read whole on its own. -/
theorem scanNumber_body_used (pre : List Char) (d : Char) (r0 l r : List Char)
    (h : (if d = '0' then scanFraction (pre ++ [d]) r0
          else scanFraction (pre ++ [d] ++ (spanDigits r0).1) (spanDigits r0).2) = .ok (l, r)) :
    ∃ used, r0 = used ++ r ∧ l = pre ++ d :: used
      ∧ (if d = '0' then scanFraction (pre ++ [d]) used
          else scanFraction (pre ++ [d] ++ (spanDigits used).1) (spanDigits used).2)
        = .ok (l, []) := by
  by_cases h0 : d = '0'
  · simp only [h0, if_true] at h ⊢
    obtain ⟨used, hu1, hu2, hu3⟩ := scanFraction_used _ _ _ _ h
    exact ⟨used, hu1, by simp [hu2], hu3⟩
  · simp only [h0, if_false] at h ⊢
    obtain ⟨used, hu1, hu2, hu3⟩ := scanFraction_used _ _ _ _ h
    have hs := spanDigits_split r0
    have hsp : spanDigits ((spanDigits r0).1 ++ used) = ((spanDigits r0).1, used) := by
      have := spanDigits_append (spanDigits r0).1 used
        (fun _ c t hct => hs.2.2 c (t ++ r) (by rw [hu1, hct]; rfl))
      rw [hs.2.1] at this
      simpa using this
    refine ⟨(spanDigits r0).1 ++ used, ?_, ?_, ?_⟩
    · conv_lhs => rw [hs.1, hu1]
      simp
    · simp [hu2]
    · rw [hsp]
      simpa using hu3


/-- The part of a text read as a number is read whole on its own, and is the
literal read. -/
theorem scanNumber_used (c : Char) (cs : List Char) (lit : String) (rest : List Char)
    (h : scanNumber c cs = .ok (lit, rest)) :
    ∃ used, cs = used ++ rest ∧ lit.data = c :: used ∧ scanNumber c used = .ok (lit, []) := by
  unfold scanNumber at h
  simp only at h
  have h2 := wrap_ok _ _ _ h
  by_cases hm : c = '-'
  · subst hm
    cases cs with
    | nil => simp at h2
    | cons d r0 =>
      by_cases hd : isDigit d = true
      · simp only [if_true, hd] at h2
        obtain ⟨used, hu1, hu2, hu3⟩ := scanNumber_body_used ['-'] d r0 _ _ h2
        refine ⟨d :: used, by simp [hu1], by simpa using hu2, ?_⟩
        unfold scanNumber
        simp only [if_true, hd, hu3]
      · simp [hd] at h2
  · simp only [hm, if_false] at h2
    obtain ⟨used, hu1, hu2, hu3⟩ := scanNumber_body_used [] c cs _ _ h2
    refine ⟨used, hu1, by simpa using hu2, ?_⟩
    unfold scanNumber
    simp only [hm, if_false, hu3]

/-- A number the scanner reads is a numeric literal. -/
theorem scanNumber_valid (c : Char) (cs : List Char) (lit : String) (rest : List Char)
    (hc : c = '-' ∨ isDigit c = true) (h : scanNumber c cs = .ok (lit, rest)) :
    ValidNumber lit := by
  obtain ⟨used, _, hu2, hu3⟩ := scanNumber_used c cs lit rest h
  exact ⟨c, used, hu2, hc, hu3⟩

/-- The computed test of a numeric literal is right. -/
theorem isNumberLit_iff (lit : String) : isNumberLit lit = true ↔ ValidNumber lit := by
  unfold isNumberLit
  constructor
  · intro h
    cases hd : lit.data with
    | nil => simp [hd] at h
    | cons c cs =>
      rw [hd] at h
      simp only [Bool.and_eq_true, Bool.or_eq_true, decide_eq_true_eq] at h
      cases hn : scanNumber c cs with
      | error msg => simp [hn] at h
      | ok p =>
        obtain ⟨l, r⟩ := p
        cases r with
        | nil =>
          obtain ⟨used, hu1, hu2, _⟩ := scanNumber_used c cs l [] hn
          have hl : l = lit := by
            apply String.ext
            rw [hu2, hd, hu1]
            simp
          rw [hl] at hn
          exact ⟨c, cs, hd, h.1, hn⟩
        | cons d r2 => simp [hn] at h
  · rintro ⟨c, cs, h1, h2, h3⟩
    rw [h1]
    simp only [h3, Bool.and_true, Bool.or_eq_true, decide_eq_true_eq]
    exact h2

/-- The numbers of a list of items are valid when those of each item are. -/
theorem numbersValidItems_iff (l : List JSON) :
    numbersValidItems l ↔ ∀ x ∈ l, x.NumbersValid := by
  induction l with
  | nil => simp [numbersValidItems]
  | cons x xs ih => simp [numbersValidItems, ih]

/-- The numbers of a list of members are valid when those of each value are. -/
theorem numbersValidMembers_iff (l : List (String × JSON)) :
    numbersValidMembers l ↔ ∀ m ∈ l, m.2.NumbersValid := by
  induction l with
  | nil => simp [numbersValidMembers]
  | cons m ms ih =>
    obtain ⟨k, v⟩ := m
    simp [numbersValidMembers, ih]

/-- Reading a literal gives a value without numbers. -/
theorem scanLiteral_valid (name : String) (v0 : JSON) (hv0 : v0.NumbersValid) :
    ∀ (want cs : List Char) (v : JSON) (rest : List Char),
      scanLiteral name v0 want cs = .ok (v, rest) → v.NumbersValid := by
  intro want
  induction want with
  | nil =>
    intro cs v rest h
    simp only [scanLiteral, Except.ok.injEq, Prod.mk.injEq] at h
    rw [← h.1]
    exact hv0
  | cons w ws ih =>
    intro cs v rest h
    cases cs with
    | nil => simp [scanLiteral] at h
    | cons c cs =>
      simp only [scanLiteral] at h
      split_ifs at h
      exact ih cs v rest h

mutual
/-- Every number of a value the scanner reads is a numeric literal. -/
theorem scanValue_valid :
    ∀ (fuel : Nat) (cs : List Char) (v : JSON) (rest : List Char),
      scanValue fuel cs = .ok (v, rest) → v.NumbersValid
  | 0, _, _, _, h => by simp [scanValue] at h
  | _ + 1, [], _, _, h => by simp [scanValue] at h
  | fuel + 1, c :: cs, v, rest, h => by
    rw [scanValue] at h
    split_ifs at h with h1 h2 h3 h4 h5 h6 h7
    · split at h
      · simp at h
      · split_ifs at h
        · simp only [Except.ok.injEq, Prod.mk.injEq] at h
          rw [← h.1]
          simp [JSON.NumbersValid, numbersValidMembers]
        · exact scanMembers_valid fuel _ [] v rest h (by simp)
    · split at h
      · simp at h
      · split_ifs at h
        · simp only [Except.ok.injEq, Prod.mk.injEq] at h
          rw [← h.1]
          simp [JSON.NumbersValid, numbersValidItems]
        · exact scanItems_valid fuel _ [] v rest h (by simp)
    · split at h
      · simp at h
      · simp only [Except.ok.injEq, Prod.mk.injEq] at h
        rw [← h.1]
        simp [JSON.NumbersValid]
    · split at h
      · simp at h
      · rename_i lit r hn
        simp only [Except.ok.injEq, Prod.mk.injEq] at h
        rw [← h.1]
        simp only [JSON.NumbersValid]
        exact scanNumber_valid c cs lit r (by simpa using h4) hn
    · exact scanLiteral_valid _ _ (by simp [JSON.NumbersValid]) _ _ _ _ h
    · exact scanLiteral_valid _ _ (by simp [JSON.NumbersValid]) _ _ _ _ h
    · exact scanLiteral_valid _ _ (by simp [JSON.NumbersValid]) _ _ _ _ h
/-- Every number of an array the scanner reads is a numeric literal. -/
theorem scanItems_valid :
    ∀ (fuel : Nat) (cs : List Char) (acc : List JSON) (v : JSON) (rest : List Char),
      scanItems fuel cs acc = .ok (v, rest) → (∀ x ∈ acc, x.NumbersValid) → v.NumbersValid
  | 0, _, _, _, _, h, _ => by simp [scanItems] at h
  | fuel + 1, cs, acc, v, rest, h, hacc => by
    rw [scanItems] at h
    split at h
    · simp at h
    · rename_i x r hx
      have hxv := scanValue_valid fuel cs x r hx
      split at h
      · simp at h
      · split_ifs at h
        · split at h
          · simp at h
          · exact scanItems_valid fuel _ (x :: acc) v rest h (by
              intro y hy
              rcases List.mem_cons.mp hy with rfl | hy
              · exact hxv
              · exact hacc y hy)
        · simp only [Except.ok.injEq, Prod.mk.injEq] at h
          rw [← h.1]
          simp only [JSON.NumbersValid]
          rw [numbersValidItems_iff]
          intro y hy
          simp only [List.reverse_cons, List.mem_append, List.mem_reverse,
            List.mem_singleton] at hy
          rcases hy with hy | rfl
          · exact hacc y hy
          · exact hxv
/-- Every number of an object the scanner reads is a numeric literal. -/
theorem scanMembers_valid :
    ∀ (fuel : Nat) (cs : List Char) (acc : List (String × JSON)) (v : JSON) (rest : List Char),
      scanMembers fuel cs acc = .ok (v, rest) → (∀ m ∈ acc, m.2.NumbersValid) →
      v.NumbersValid
  | 0, _, _, _, _, h, _ => by simp [scanMembers] at h
  | _ + 1, [], _, _, _, h, _ => by simp [scanMembers] at h
  | fuel + 1, q :: cs, acc, v, rest, h, hacc => by
    rw [scanMembers] at h
    split_ifs at h
    split at h
    · simp at h
    · split at h
      · simp at h
      · split_ifs at h
        split at h
        · simp at h
        · split at h
          · simp at h
          · rename_i x r hx
            have hxv := scanValue_valid fuel _ x r hx
            split at h
            · simp at h
            · split_ifs at h
              · split at h
                · simp at h
                · rename_i k _ _ _ _ _ _ _ _ _ _
                  exact scanMembers_valid fuel _ (_ :: acc) v rest h (by
                    intro y hy
                    rcases List.mem_cons.mp hy with rfl | hy
                    · exact hxv
                    · exact hacc y hy)
              · simp only [Except.ok.injEq, Prod.mk.injEq] at h
                rw [← h.1]
                simp only [JSON.NumbersValid]
                rw [numbersValidMembers_iff]
                intro y hy
                simp only [List.reverse_cons, List.mem_append, List.mem_reverse,
                  List.mem_singleton] at hy
                rcases hy with hy | rfl
                · exact hacc y hy
                · exact hxv
end

/-- Every number of a value read from a text is a numeric literal. -/
theorem parseJSON_valid (body : String) (v : JSON) (h : parseJSON body = .ok v) :
    v.NumbersValid := by
  unfold parseJSON at h
  cases h1 : skipSpace body.data with
  | nil => simp [h1] at h
  | cons c t =>
    rw [h1] at h
    simp only [List.length_cons] at h
    cases h2 : scanValue (2 * (t.length + 1) + 2) (c :: t) with
    | error msg => simp [h2] at h
    | ok p =>
      obtain ⟨x, r⟩ := p
      rw [h2] at h
      simp only at h
      cases h3 : skipSpace r with
      | nil =>
        rw [h3] at h
        simp only [Except.ok.injEq] at h
        rw [← h]
        exact scanValue_valid _ _ x r h2
      | cons d t2 => simp [h3] at h

/-! ### The fuel of the scanner is enough -/

/-- Skipping white space does not lengthen a text. -/
theorem skipSpace_length (cs : List Char) : (skipSpace cs).length ≤ cs.length := by
  induction cs with
  | nil => simp [skipSpace]
  | cons c cs ih =>
    unfold skipSpace
    split_ifs
    · simp only [List.length_cons]; omega
    · simp

/-- Reading four hexadecimal digits shortens the text. -/
theorem scanHex4_length (cs : List Char) (n : Nat) (r : List Char)
    (h : scanHex4 cs = .ok (n, r)) : r.length < cs.length := by
  unfold scanHex4 at h
  simp only at h
  repeat' split at h
  all_goals first | (simp at h; done) | skip
  all_goals
    simp only [Except.ok.injEq, Prod.mk.injEq] at h
    rw [← h.2]
    simp only [List.length_cons]
    omega

/-- Reading a string literal shortens the text. -/
theorem scanUnits_length :
    ∀ (fuel : Nat) (cs : List Char) (acc us : List StrUnit) (r : List Char),
      scanUnits fuel cs acc = .ok (us, r) → r.length < cs.length
  | 0, _, _, _, _, h => by simp [scanUnits] at h
  | _ + 1, [], _, _, _, h => by simp [scanUnits] at h
  | fuel + 1, c :: cs, acc, us, r, h => by
    simp only [scanUnits] at h
    split_ifs at h with h1 h2 h3
    · simp only [Except.ok.injEq, Prod.mk.injEq] at h
      rw [← h.2]
      simp
    · split at h
      · simp at h
      · split at h
        · have := scanUnits_length fuel _ _ _ _ h
          simp only [List.length_cons] at this ⊢
          omega
        · split_ifs at h
          split at h
          · simp at h
          · rename_i u rest2 hx
            have h4 := scanHex4_length _ _ _ hx
            have := scanUnits_length fuel _ _ _ _ h
            simp only [List.length_cons] at this h4 ⊢
            omega
    · have := scanUnits_length fuel _ _ _ _ h
      simp only [List.length_cons] at this ⊢
      omega

/-- Reading a string shortens the text. -/
theorem scanString_length (cs : List Char) (s : String) (r : List Char)
    (h : scanString cs = .ok (s, r)) : r.length < cs.length := by
  unfold scanString at h
  split at h
  · simp at h
  · rename_i us rest hx
    simp only [Except.ok.injEq, Prod.mk.injEq] at h
    rw [← h.2]
    exact scanUnits_length _ _ _ _ _ hx

/-- Reading a number does not lengthen the text. -/
theorem scanNumber_length (c : Char) (cs : List Char) (lit : String) (rest : List Char)
    (h : scanNumber c cs = .ok (lit, rest)) : rest.length ≤ cs.length := by
  unfold scanNumber at h
  simp only at h
  have h2 := wrap_ok _ _ _ h
  by_cases hm : c = '-'
  · subst hm
    cases cs with
    | nil => simp at h2
    | cons d r0 =>
      by_cases hd : isDigit d = true
      · simp only [if_true, hd] at h2
        obtain ⟨used, hu1, _, _⟩ := scanNumber_body_used ['-'] d r0 _ _ h2
        rw [hu1]
        simp
        omega
      · simp [hd] at h2
  · simp only [hm, if_false] at h2
    by_cases h0 : c = '0'
    · simp only [h0, if_true] at h2
      obtain ⟨used, hu1, _, _⟩ := scanFraction_used _ _ _ _ h2
      rw [hu1]
      simp
    · simp only [h0, if_false] at h2
      obtain ⟨used, hu1, _, _⟩ := scanFraction_used _ _ _ _ h2
      have hs := (spanDigits_split cs).1
      have : cs.length = (spanDigits cs).1.length + (spanDigits cs).2.length := by
        conv_lhs => rw [hs]
        simp
      rw [hu1] at this
      simp at this
      omega

/-- Reading a literal does not lengthen the text. -/
theorem scanLiteral_length (name : String) (v0 : JSON) :
    ∀ (want cs : List Char) (v : JSON) (rest : List Char),
      scanLiteral name v0 want cs = .ok (v, rest) → rest.length ≤ cs.length := by
  intro want
  induction want with
  | nil =>
    intro cs v rest h
    simp only [scanLiteral, Except.ok.injEq, Prod.mk.injEq] at h
    rw [← h.2]
  | cons w ws ih =>
    intro cs v rest h
    cases cs with
    | nil => simp [scanLiteral] at h
    | cons c cs =>
      simp only [scanLiteral] at h
      split_ifs at h
      have := ih cs v rest h
      simp only [List.length_cons]
      omega

mutual
/-- Reading a value shortens the text. -/
theorem scanValue_length :
    ∀ (fuel : Nat) (cs : List Char) (v : JSON) (rest : List Char),
      scanValue fuel cs = .ok (v, rest) → rest.length < cs.length
  | 0, _, _, _, h => by simp [scanValue] at h
  | _ + 1, [], _, _, h => by simp [scanValue] at h
  | fuel + 1, c :: cs, v, rest, h => by
    rw [scanValue] at h
    have hsk := skipSpace_length cs
    split_ifs at h with h1 h2 h3 h4 h5 h6 h7
    · split at h
      · simp at h
      · rename_i d r hd
        rw [hd] at hsk
        split_ifs at h
        · simp only [Except.ok.injEq, Prod.mk.injEq] at h
          rw [← h.2]
          simp only [List.length_cons] at hsk ⊢
          omega
        · have := scanMembers_length fuel _ [] v rest h
          simp only [List.length_cons] at hsk this ⊢
          omega
    · split at h
      · simp at h
      · rename_i d r hd
        rw [hd] at hsk
        split_ifs at h
        · simp only [Except.ok.injEq, Prod.mk.injEq] at h
          rw [← h.2]
          simp only [List.length_cons] at hsk ⊢
          omega
        · have := scanItems_length fuel _ [] v rest h
          simp only [List.length_cons] at hsk this ⊢
          omega
    · split at h
      · simp at h
      · rename_i s r hs
        simp only [Except.ok.injEq, Prod.mk.injEq] at h
        rw [← h.2]
        have := scanString_length _ _ _ hs
        simp only [List.length_cons]
        omega
    · split at h
      · simp at h
      · rename_i lit r hn
        simp only [Except.ok.injEq, Prod.mk.injEq] at h
        rw [← h.2]
        have := scanNumber_length _ _ _ _ hn
        simp only [List.length_cons]
        omega
    · have := scanLiteral_length _ _ _ _ _ _ h
      simp only [List.length_cons]
      omega
    · have := scanLiteral_length _ _ _ _ _ _ h
      simp only [List.length_cons]
      omega
    · have := scanLiteral_length _ _ _ _ _ _ h
      simp only [List.length_cons]
      omega
/-- Reading the items of an array shortens the text. -/
theorem scanItems_length :
    ∀ (fuel : Nat) (cs : List Char) (acc : List JSON) (v : JSON) (rest : List Char),
      scanItems fuel cs acc = .ok (v, rest) → rest.length < cs.length
  | 0, _, _, _, _, h => by simp [scanItems] at h
  | fuel + 1, cs, acc, v, rest, h => by
    rw [scanItems] at h
    split at h
    · simp at h
    · rename_i x r hx
      have hxl := scanValue_length fuel cs x r hx
      have hsk := skipSpace_length r
      split at h
      · simp at h
      · rename_i d r1 hd
        rw [hd] at hsk
        have hsk2 := skipSpace_length r1
        split_ifs at h
        · split at h
          · simp at h
          · have := scanItems_length fuel _ _ v rest h
            simp only [List.length_cons] at hsk
            omega
        · simp only [Except.ok.injEq, Prod.mk.injEq] at h
          rw [← h.2]
          simp only [List.length_cons] at hsk
          omega
/-- Reading the members of an object shortens the text. -/
theorem scanMembers_length :
    ∀ (fuel : Nat) (cs : List Char) (acc : List (String × JSON)) (v : JSON) (rest : List Char),
      scanMembers fuel cs acc = .ok (v, rest) → rest.length < cs.length
  | 0, _, _, _, _, h => by simp [scanMembers] at h
  | _ + 1, [], _, _, _, h => by simp [scanMembers] at h
  | fuel + 1, q :: cs, acc, v, rest, h => by
    rw [scanMembers] at h
    split_ifs at h
    split at h
    · simp at h
    · rename_i k r0 hk
      have hkl := scanString_length _ _ _ hk
      have hsk0 := skipSpace_length r0
      split at h
      · simp at h
      · rename_i d r hd
        rw [hd] at hsk0
        have hsk1 := skipSpace_length r
        split_ifs at h
        split at h
        · simp at h
        · split at h
          · simp at h
          · rename_i x r2 hx
            have hxl := scanValue_length fuel _ x r2 hx
            have hsk2 := skipSpace_length r2
            split at h
            · simp at h
            · rename_i e r3 he
              rw [he] at hsk2
              have hsk3 := skipSpace_length r3
              split_ifs at h
              · split at h
                · simp at h
                · have := scanMembers_length fuel _ _ v rest h
                  simp only [List.length_cons] at hsk0 hsk2 ⊢
                  omega
              · simp only [Except.ok.injEq, Prod.mk.injEq] at h
                rw [← h.2]
                simp only [List.length_cons] at hsk0 hsk2 ⊢
                omega
end

/-- The result of reading a string literal is the same with more fuel than
the text has characters. -/
theorem scanUnits_fuel :
    ∀ (f : Nat) (cs : List Char) (acc : List StrUnit), cs.length < f →
      scanUnits (f + 1) cs acc = scanUnits f cs acc
  | 0, _, _, hf => by omega
  | _ + 1, [], _, _ => by simp [scanUnits]
  | f + 1, c :: cs, acc, hf => by
    simp only [List.length_cons] at hf
    conv_lhs => simp only [scanUnits]
    conv_rhs => simp only [scanUnits]
    split_ifs with h1 h2 h3
    · rfl
    · cases cs with
      | nil => rfl
      | cons e rest =>
        simp only [List.length_cons] at hf
        simp only
        cases hs : simpleEscape e with
        | some x =>
          simp only
          exact scanUnits_fuel f rest _ (by omega)
        | none =>
          simp only
          split_ifs
          · cases hx : scanHex4 rest with
            | error msg => rfl
            | ok p =>
              obtain ⟨u, rest2⟩ := p
              have := scanHex4_length _ _ _ hx
              simp only
              exact scanUnits_fuel f rest2 _ (by omega)
          · rfl
    · rfl
    · exact scanUnits_fuel f cs _ (by omega)

mutual
/-- Reading a value gives the same result with one more unit of fuel, above twice the
length of the text. -/
theorem scanValue_fuel :
    ∀ (f : Nat) (cs : List Char), 2 * cs.length ≤ f → scanValue (f + 1) cs = scanValue f cs
  | 0, [], _ => by simp [scanValue]
  | 0, _ :: _, hf => by simp at hf
  | _ + 1, [], _ => by simp [scanValue]
  | f + 1, c :: cs, hf => by
    have hsk := skipSpace_length cs
    simp only [List.length_cons] at hf
    conv_lhs => rw [scanValue]
    conv_rhs => rw [scanValue]
    split_ifs with h1 h2 h3 h4 h5 h6 h7
    · cases hd : skipSpace cs with
      | nil => simp
      | cons d r =>
        rw [hd] at hsk
        simp only [List.length_cons] at hsk
        simp only
        split_ifs
        · rfl
        · exact scanMembers_fuel f (d :: r) [] (by simp only [List.length_cons]; omega)
    · cases hd : skipSpace cs with
      | nil => simp
      | cons d r =>
        rw [hd] at hsk
        simp only [List.length_cons] at hsk
        simp only
        split_ifs
        · rfl
        · exact scanItems_fuel f (d :: r) [] (by simp only [List.length_cons]; omega)
    · rfl
    · rfl
    · rfl
    · rfl
    · rfl
    · rfl
/-- Reading items gives the same result with one more unit of fuel, above twice the
length of the text. -/
theorem scanItems_fuel :
    ∀ (f : Nat) (cs : List Char) (acc : List JSON), 2 * cs.length + 1 ≤ f →
      scanItems (f + 1) cs acc = scanItems f cs acc
  | 0, _, _, hf => by omega
  | f + 1, cs, acc, hf => by
    conv_lhs => rw [scanItems]
    conv_rhs => rw [scanItems]
    rw [scanValue_fuel f cs (by omega)]
    cases hx : scanValue f cs with
    | error msg => rfl
    | ok p =>
      obtain ⟨x, r⟩ := p
      have hxl := scanValue_length f cs x r hx
      have hsk := skipSpace_length r
      simp only
      cases hd : skipSpace r with
      | nil => rfl
      | cons d r1 =>
        rw [hd] at hsk
        simp only [List.length_cons] at hsk
        have hsk2 := skipSpace_length r1
        simp only
        split_ifs
        · cases hr2 : skipSpace r1 with
          | nil => rfl
          | cons e r2 =>
            rw [hr2] at hsk2
            simp only
            exact scanItems_fuel f (e :: r2) (x :: acc) (by omega)
        · rfl
        · rfl
/-- Reading members gives the same result with one more unit of fuel, above twice
the length of the text. -/
theorem scanMembers_fuel :
    ∀ (f : Nat) (cs : List Char) (acc : List (String × JSON)), 2 * cs.length + 1 ≤ f →
      scanMembers (f + 1) cs acc = scanMembers f cs acc
  | 0, _, _, hf => by omega
  | _ + 1, [], _, _ => by simp [scanMembers]
  | f + 1, q :: cs, acc, hf => by
    simp only [List.length_cons] at hf
    conv_lhs => rw [scanMembers]
    conv_rhs => rw [scanMembers]
    split_ifs
    · cases hk : scanString cs with
      | error msg => rfl
      | ok p =>
        obtain ⟨k, r0⟩ := p
        have hkl := scanString_length _ _ _ hk
        have hsk0 := skipSpace_length r0
        simp only
        cases hd : skipSpace r0 with
        | nil => rfl
        | cons d r =>
          rw [hd] at hsk0
          simp only [List.length_cons] at hsk0
          have hsk1 := skipSpace_length r
          simp only
          split_ifs
          · cases hr2 : skipSpace r with
            | nil => rfl
            | cons c2 r2 =>
              rw [hr2] at hsk1
              simp only [List.length_cons] at hsk1
              simp only
              rw [scanValue_fuel f (c2 :: r2) (by simp only [List.length_cons]; omega)]
              cases hx : scanValue f (c2 :: r2) with
              | error msg => rfl
              | ok p2 =>
                obtain ⟨x, r3⟩ := p2
                have hxl := scanValue_length f _ x r3 hx
                simp only [List.length_cons] at hxl
                have hsk3 := skipSpace_length r3
                simp only
                cases he : skipSpace r3 with
                | nil => rfl
                | cons e r4 =>
                  rw [he] at hsk3
                  simp only [List.length_cons] at hsk3
                  have hsk4 := skipSpace_length r4
                  simp only
                  split_ifs
                  · cases hr5 : skipSpace r4 with
                    | nil => rfl
                    | cons c5 r5 =>
                      rw [hr5] at hsk4
                      simp only
                      exact scanMembers_fuel f (c5 :: r5) ((k, x) :: acc) (by omega)
                  · rfl
                  · rfl
          · rfl
    · rfl
end

/-- The result of the scanner is the same with any fuel above twice the
length of the text: the fuel the decoder is given is enough on every text. -/
theorem scanValue_fuel_enough (cs : List Char) :
    ∀ extra : Nat, scanValue (2 * cs.length + 2 + extra) cs = scanValue (2 * cs.length + 2) cs
  | 0 => rfl
  | extra + 1 => by
    rw [← scanValue_fuel_enough cs extra]
    exact scanValue_fuel (2 * cs.length + 2 + extra) cs (by omega)

/-! ### Encoding and decoding a plugin -/

/-- Putting a key above all the keys of a map adds the entry at the end. -/
theorem mapSet_last {α : Type} (k : String) (v : α) (acc : List (String × α))
    (h : ∀ a ∈ acc.map Prod.fst, a.data < k.data) : mapSet k v acc = acc ++ [(k, v)] := by
  induction acc with
  | nil => rfl
  | cons e rest ih =>
    obtain ⟨k1, v1⟩ := e
    have h1 : k1.data < k.data := h k1 (by simp)
    have hn : ¬ k.data < k1.data := not_lt_of_gt h1
    have hne : k ≠ k1 := by
      rintro rfl
      exact lt_irrefl _ h1
    simp only [mapSet, hn, hne, if_false, List.cons_append]
    rw [ih (fun a ha => h a (by simp at ha ⊢; exact Or.inr ha))]

mutual
/-- A canonical Go value is what the decoder builds from its encoding. -/
theorem toAny_marshalAny : ∀ v : GoValue, v.Canonical → toAny (marshalAny v) = v
  | GoValue.nil, _ => by simp [marshalAny, toAny]
  | GoValue.bool _, _ => by simp [marshalAny, toAny]
  | GoValue.float64 _, _ => by simp [marshalAny, toAny]
  | GoValue.string _, _ => by simp [marshalAny, toAny]
  | GoValue.slice items, h => by
    simp only [marshalAny, toAny]
    rw [toAnyItems_marshalItems items (by simpa [GoValue.Canonical] using h)]
  | GoValue.map entries, h => by
    simp only [marshalAny, toAny]
    simp only [GoValue.Canonical] at h
    rw [toAnyMembers_marshalEntries entries [] h.2 (by simp) h.1]
    simp
/-- The items of a canonical slice are what the decoder builds from their
encoding. -/
theorem toAnyItems_marshalItems :
    ∀ xs : List GoValue, canonicalItems xs → toAnyItems (marshalItems xs) = xs
  | [], _ => by simp [marshalItems, toAnyItems]
  | x :: xs, h => by
    simp only [canonicalItems] at h
    simp only [marshalItems, toAnyItems]
    rw [toAny_marshalAny x h.1, toAnyItems_marshalItems xs h.2]
/-- Storing the encoding of canonical entries into a map whose keys are all
below theirs adds them at the end. -/
theorem toAnyMembers_marshalEntries :
    ∀ (es acc : List (String × GoValue)), canonicalValues es →
      (∀ a ∈ acc.map Prod.fst, ∀ k ∈ es.map Prod.fst, a.data < k.data) →
      List.Pairwise (fun a b => a.data < b.data) (es.map Prod.fst) →
      toAnyMembers (marshalEntries es) acc = acc ++ es
  | [], acc, _, _, _ => by simp [marshalEntries, toAnyMembers]
  | (k, v) :: es, acc, h, hacc, hs => by
    simp only [canonicalValues] at h
    simp only [marshalEntries, toAnyMembers]
    rw [toAny_marshalAny v h.1, mapSet_last k v acc (fun a ha => hacc a ha k (by simp))]
    simp only [List.map_cons, List.pairwise_cons] at hs
    rw [toAnyMembers_marshalEntries es (acc ++ [(k, v)]) h.2 ?_ hs.2]
    · simp
    · intro a ha b hb
      simp only [List.map_append, List.map_cons, List.map_nil, List.mem_append,
        List.mem_singleton] at ha
      rcases ha with ha | rfl
      · exact hacc a ha b (by simp at hb ⊢; exact Or.inr hb)
      · exact hs.1 b hb
end

mutual
/-- The computed representation invariant is right. -/
theorem isCanonical_iff : ∀ v : GoValue, v.isCanonical = true ↔ v.Canonical
  | GoValue.nil => by simp [GoValue.isCanonical, GoValue.Canonical]
  | GoValue.bool _ => by simp [GoValue.isCanonical, GoValue.Canonical]
  | GoValue.float64 lit => by
    simp only [GoValue.isCanonical, GoValue.Canonical]
    exact isNumberLit_iff lit
  | GoValue.string _ => by simp [GoValue.isCanonical, GoValue.Canonical]
  | GoValue.slice items => by
    simp only [GoValue.isCanonical, GoValue.Canonical]
    exact areCanonicalItems_iff items
  | GoValue.map entries => by
    simp only [GoValue.isCanonical, GoValue.Canonical, Bool.and_eq_true, decide_eq_true_eq]
    rw [areCanonicalValues_iff entries]
/-- The computed invariant of the items of a slice is right. -/
theorem areCanonicalItems_iff :
    ∀ xs : List GoValue, areCanonicalItems xs = true ↔ canonicalItems xs
  | [] => by simp [areCanonicalItems, canonicalItems]
  | x :: xs => by
    simp only [areCanonicalItems, canonicalItems, Bool.and_eq_true]
    rw [isCanonical_iff x, areCanonicalItems_iff xs]
/-- The computed invariant of the values of a map is right. -/
theorem areCanonicalValues_iff :
    ∀ es : List (String × GoValue), areCanonicalValues es = true ↔ canonicalValues es
  | [] => by simp [areCanonicalValues, canonicalValues]
  | (_, v) :: es => by
    simp only [areCanonicalValues, canonicalValues, Bool.and_eq_true]
    rw [isCanonical_iff v, areCanonicalValues_iff es]
end

/-- The representation invariant of a plugin says that its `Config`, when it
is a map, is canonical. -/
theorem plugin_isCanonical_iff (p : Plugin) :
    p.isCanonical = true ↔ ∀ es, p.Config = some es → (GoValue.map es).Canonical := by
  unfold Plugin.isCanonical
  cases h : p.Config with
  | none => simp
  | some entries =>
    simp only [Option.some.injEq, forall_eq']
    exact isCanonical_iff _

mutual
/-- The encoding of a canonical Go value has valid numbers. -/
theorem marshalAny_valid : ∀ v : GoValue, v.Canonical → (marshalAny v).NumbersValid
  | GoValue.nil, _ => by simp [marshalAny, JSON.NumbersValid]
  | GoValue.bool _, _ => by simp [marshalAny, JSON.NumbersValid]
  | GoValue.float64 _, h => by simpa [marshalAny, JSON.NumbersValid, GoValue.Canonical] using h
  | GoValue.string _, _ => by simp [marshalAny, JSON.NumbersValid]
  | GoValue.slice items, h => by
    simp only [marshalAny, JSON.NumbersValid]
    exact marshalItems_valid items (by simpa [GoValue.Canonical] using h)
  | GoValue.map entries, h => by
    simp only [marshalAny, JSON.NumbersValid]
    simp only [GoValue.Canonical] at h
    exact marshalEntries_valid entries h.2
/-- The encoding of canonical items has valid numbers. -/
theorem marshalItems_valid :
    ∀ xs : List GoValue, canonicalItems xs → numbersValidItems (marshalItems xs)
  | [], _ => by simp [marshalItems, numbersValidItems]
  | x :: xs, h => by
    simp only [canonicalItems] at h
    simp only [marshalItems, numbersValidItems]
    exact ⟨marshalAny_valid x h.1, marshalItems_valid xs h.2⟩
/-- The encoding of canonical entries has valid numbers. -/
theorem marshalEntries_valid :
    ∀ es : List (String × GoValue), canonicalValues es → numbersValidMembers (marshalEntries es)
  | [], _ => by simp [marshalEntries, numbersValidMembers]
  | (k, v) :: es, h => by
    simp only [canonicalValues] at h
    simp only [marshalEntries, numbersValidMembers]
    exact ⟨marshalAny_valid v h.1, marshalEntries_valid es h.2⟩
end

/-- The keys of a map after an assignment are the key assigned and the keys
it had. -/
theorem mem_keys_mapSet {α : Type} (k : String) (v : α) (acc : List (String × α)) (a : String)
    (h : a ∈ (mapSet k v acc).map Prod.fst) : a = k ∨ a ∈ acc.map Prod.fst := by
  induction acc with
  | nil => simpa [mapSet] using h
  | cons e rest ih =>
    obtain ⟨k1, v1⟩ := e
    unfold mapSet at h
    split_ifs at h with h1 h2
    · simp only [List.map_cons, List.mem_cons] at h ⊢
      exact h
    · simp only [List.map_cons, List.mem_cons] at h ⊢
      rcases h with h | h
      · exact Or.inl h
      · exact Or.inr (Or.inr h)
    · simp only [List.map_cons, List.mem_cons] at h ⊢
      rcases h with h | h
      · exact Or.inr (Or.inl h)
      · rcases ih h with h | h
        · exact Or.inl h
        · exact Or.inr (Or.inr h)

/-- An assignment keeps the keys of a map in increasing order. -/
theorem mapSet_sorted {α : Type} (k : String) (v : α) (acc : List (String × α))
    (h : List.Pairwise (fun a b : String => a.data < b.data) (acc.map Prod.fst)) :
    List.Pairwise (fun a b : String => a.data < b.data) ((mapSet k v acc).map Prod.fst) := by
  induction acc with
  | nil => simp [mapSet]
  | cons e rest ih =>
    obtain ⟨k1, v1⟩ := e
    simp only [List.map_cons, List.pairwise_cons] at h
    unfold mapSet
    split_ifs with h1 h2
    · simp only [List.map_cons, List.pairwise_cons, List.mem_cons]
      refine ⟨?_, h⟩
      rintro b (rfl | hb)
      · exact h1
      · exact lt_trans h1 (h.1 b hb)
    · subst h2
      simpa only [List.map_cons, List.pairwise_cons] using h
    · have hk : k1.data < k.data := by
        have : k.data ≠ k1.data := fun hd => h2 (String.ext hd)
        exact lt_of_le_of_ne (not_lt.mp h1) (Ne.symm this)
      simp only [List.map_cons, List.pairwise_cons]
      refine ⟨?_, ih h.2⟩
      intro b hb
      rcases mem_keys_mapSet k v rest b hb with rfl | hb
      · exact hk
      · exact h.1 b hb

/-- An assignment of a canonical value keeps the values of a map canonical. -/
theorem mapSet_canonicalValues (k : String) (v : GoValue) (acc : List (String × GoValue))
    (hv : v.Canonical) (h : canonicalValues acc) : canonicalValues (mapSet k v acc) := by
  induction acc with
  | nil => simpa [mapSet, canonicalValues] using hv
  | cons e rest ih =>
    obtain ⟨k1, v1⟩ := e
    simp only [canonicalValues] at h
    unfold mapSet
    split_ifs
    · simp only [canonicalValues]
      exact ⟨hv, h⟩
    · simp only [canonicalValues]
      exact ⟨hv, h.2⟩
    · simp only [canonicalValues]
      exact ⟨h.1, ih h.2⟩

mutual
/-- What the decoder builds for an `interface{}` is canonical. -/
theorem toAny_canonical : ∀ v : JSON, v.NumbersValid → (toAny v).Canonical
  | JSON.null, _ => by simp [toAny, GoValue.Canonical]
  | JSON.bool _, _ => by simp [toAny, GoValue.Canonical]
  | JSON.num _, h => by simpa [toAny, GoValue.Canonical, JSON.NumbersValid] using h
  | JSON.str _, _ => by simp [toAny, GoValue.Canonical]
  | JSON.arr items, h => by
    simp only [toAny, GoValue.Canonical]
    exact toAnyItems_canonical items (by simpa [JSON.NumbersValid] using h)
  | JSON.obj members, h => by
    simp only [toAny, GoValue.Canonical]
    exact toAnyMembers_canonical members [] (by simpa [JSON.NumbersValid] using h) (by simp)
      (by simp [canonicalValues])
/-- The items the decoder builds are canonical. -/
theorem toAnyItems_canonical :
    ∀ xs : List JSON, numbersValidItems xs → canonicalItems (toAnyItems xs)
  | [], _ => by simp [toAnyItems, canonicalItems]
  | x :: xs, h => by
    simp only [numbersValidItems] at h
    simp only [toAnyItems, canonicalItems]
    exact ⟨toAny_canonical x h.1, toAnyItems_canonical xs h.2⟩
/-- Storing members into a canonical map gives a canonical map. -/
theorem toAnyMembers_canonical :
    ∀ (ms : List (String × JSON)) (acc : List (String × GoValue)), numbersValidMembers ms →
      List.Pairwise (fun a b : String => a.data < b.data) (acc.map Prod.fst) →
      canonicalValues acc →
      List.Pairwise (fun a b : String => a.data < b.data)
          ((toAnyMembers ms acc).map Prod.fst)
        ∧ canonicalValues (toAnyMembers ms acc)
  | [], acc, _, hs, hc => by
    simp only [toAnyMembers]
    exact ⟨hs, hc⟩
  | (k, v) :: ms, acc, hv, hs, hc => by
    simp only [numbersValidMembers] at hv
    simp only [toAnyMembers]
    exact toAnyMembers_canonical ms (mapSet k (toAny v) acc) hv.2 (mapSet_sorted k _ acc hs)
      (mapSet_canonicalValues k _ acc (toAny_canonical v hv.1) hc)
end

/-- Storing a member keeps the `Config` of a plugin canonical. -/
theorem storeMember_canonical (st : Plugin × Option String) (m : String × JSON)
    (hm : m.2.NumbersValid)
    (h : ∀ es, st.1.Config = some es → (GoValue.map es).Canonical) :
    ∀ es, (Plugin.storeMember st m).1.Config = some es → (GoValue.map es).Canonical := by
  unfold Plugin.storeMember
  simp only
  split_ifs
  all_goals try exact h
  intro es hes
  obtain ⟨name, v⟩ := m
  cases v with
  | obj members =>
    simp only [storeAnyMap, Option.some.injEq] at hes
    subst hes
    simp only [GoValue.Canonical]
    have hms : numbersValidMembers members := by simpa [JSON.NumbersValid] using hm
    cases hcur : st.1.Config with
    | none => exact toAnyMembers_canonical members [] hms (by simp) (by simp [canonicalValues])
    | some cur =>
      have hc := h cur hcur
      simp only [GoValue.Canonical] at hc
      exact toAnyMembers_canonical members cur hms hc.1 hc.2
  | null => simp [storeAnyMap] at hes
  | bool b => exact h es (by simpa [storeAnyMap] using hes)
  | num lit => exact h es (by simpa [storeAnyMap] using hes)
  | str x => exact h es (by simpa [storeAnyMap] using hes)
  | arr items => exact h es (by simpa [storeAnyMap] using hes)

/-- Storing the members of an object keeps the `Config` of a plugin
canonical. -/
theorem foldl_storeMember_canonical (members : List (String × JSON)) :
    ∀ st : Plugin × Option String, numbersValidMembers members →
      (∀ es, st.1.Config = some es → (GoValue.map es).Canonical) →
      ∀ es, (members.foldl Plugin.storeMember st).1.Config = some es →
        (GoValue.map es).Canonical := by
  induction members with
  | nil => intro st _ h; simpa using h
  | cons m ms ih =>
    intro st hv h
    obtain ⟨k, v⟩ := m
    simp only [numbersValidMembers] at hv
    rw [List.foldl_cons]
    exact ih _ hv.2 (storeMember_canonical st (k, v) hv.1 h)

/-- The `Config` of every plugin that `json.Unmarshal` fills from the zero
plugin is canonical. -/
theorem unmarshalPlugin_config_canonical (body : String) :
    ∀ es, (unmarshalPlugin body Plugin.zero).1.Config = some es → (GoValue.map es).Canonical := by
  unfold unmarshalPlugin
  cases hp : parseJSON body with
  | error msg => intro es h; simp [Plugin.zero] at h
  | ok v =>
    have hv := parseJSON_valid body v hp
    cases v with
    | obj members =>
      simp only [decodePlugin]
      exact foldl_storeMember_canonical members _ (by simpa [JSON.NumbersValid] using hv)
        (by intro es h; simp [Plugin.zero] at h)
    | null => intro es h; simp [decodePlugin, Plugin.zero] at h
    | bool b => intro es h; simp [decodePlugin, Plugin.zero] at h
    | num lit => intro es h; simp [decodePlugin, Plugin.zero] at h
    | str x => intro es h; simp [decodePlugin, Plugin.zero] at h
    | arr items => intro es h; simp [decodePlugin, Plugin.zero] at h

/-- Every plugin that `json.Unmarshal` fills from the zero plugin is
canonical: the representation invariant holds of every plugin the client
returns. -/
theorem unmarshalPlugin_canonical (body : String) :
    (unmarshalPlugin body Plugin.zero).1.isCanonical = true :=
  (plugin_isCanonical_iff _).mpr (unmarshalPlugin_config_canonical body)

end Gokong
